import Mathlib

/-!
# ep15: a simplified Forth text interpreter (wordlists, search order, fingerprint)

A shallow embedding of `src/ep15.c` as compiled (`HASHTABLE` and `USE_GPERF`
defined), followed by theorems about it.  The `#else` branches of `HASHTABLE`
are embedded in the namespace `Plain`, and the compiled build with the bucket
count of `create` as a parameter in the namespace `Sized`; the two are compared
with each other and with the compiled build.

Representation choices:

* A byte is a `Nat`.  A pointer into the input buffer is the list of the bytes
  from that position to the end of the buffer, so `*s++` is head/tail and
  `s + i` is `s.drop i`.  Reading at or after the end of the list is a read
  outside the buffer; the functions that read return `none` there.
* `unsigned long` and `size_t` are `Nat` reduced `% 2^64` where the code can
  wrap; `int` is `Int`, with the conversions `toInt` / `toULong`.
* A bucket chain (`list_entry` linked through `next`) is a `List list_entry`;
  the `NULL` chain is `[]`.  An array is a function on its index.
* The globals `wordlists`, `order`, `order_len` and the locals of `process`
  are the fields of `State`.
* `hash` of the absent `gperf-hash.c` is a parameter `hash` of every function
  that reaches it: any function of the `key_len` bytes at `key`.
-/

namespace Ep15

/-! ## Machine integers -/

/-- Conversion of an `unsigned long` to `int` (32 bits, two's complement wrap). -/
def toInt (n : Nat) : Int :=
  if n % 2 ^ 32 < 2 ^ 31 then ((n % 2 ^ 32 : Nat) : Int) else ((n % 2 ^ 32 : Nat) : Int) - 2 ^ 32

/-- Conversion of an `int` to `unsigned long` (64 bits). -/
def toULong (i : Int) : Nat :=
  (i % 2 ^ 64).toNat

/-! ## Data model -/

/-- Entry of a wordlist: `name` is the pointer stored in the entry (`none` is
`NULL`), `name_len` and `serialno` as in the source; `next` is the tail of the
chain the entry is in. -/
structure list_entry where
  name : Option (List Nat)
  name_len : Nat
  serialno : Nat
deriving DecidableEq, Repr

/-- The struct `hashtable_t`: the bucket count and the array of chain heads. -/
structure hashtable_t where
  size : Int
  table : Int → List list_entry

/-- The array `hashtable_t *wordlists[256]`; `none` is `NULL`. -/
abbrev Wordlists := Nat → Option hashtable_t

/-- Libc `memcmp` on the first `n` bytes: zero exactly when they agree (the
source only tests the result against zero). -/
def memcmp (a b : List Nat) (n : Nat) : Int :=
  if a.take n = b.take n then 0 else 1

/-! ## The hash table -/

/-- Source `ht_create`: `NULL` for `size < 1`, else a table of `size` empty chains. -/
def ht_create (size : Int) : Option hashtable_t :=
  if size < 1 then none
  else some { size := size, table := fun _ => [] }

/-- Source `ht_hash` (the `USE_GPERF` branch): `hash(key, key_len)` widened to
`unsigned long`, taken modulo the `int` size converted to `unsigned long`, and
returned as `int`. -/
def ht_hash (hash : List Nat → Nat) (hashtable : hashtable_t) (key : List Nat)
    (key_len : Nat) : Int :=
  let hashval : Nat := hash (key.take key_len) % 2 ^ 64
  toInt (hashval % toULong hashtable.size)

/-- Source `ht_set`: a new entry becomes the head of the chain of its bucket.
The parameter `serialno` is an `int`, stored into the `unsigned long` field. -/
def ht_set (hash : List Nat → Nat) (hashtable : hashtable_t) (key : List Nat)
    (key_len : Nat) (serialno : Int) : hashtable_t :=
  let bin := ht_hash hash hashtable key key_len
  let new : list_entry :=
    { name := some key, name_len := key_len, serialno := toULong serialno }
  { hashtable with
    table := fun b => if b = bin then new :: hashtable.table bin else hashtable.table b }

/-- The loop condition of `ht_get` on a non-`NULL` `pair`:
`pair->name != NULL && (key_len != pair->name_len || memcmp(key,pair->name,key_len)!=0)`. -/
def ht_get_cond (key : List Nat) (key_len : Nat) (pair : list_entry) : Bool :=
  match pair.name with
  | none => false
  | some name => decide (key_len ≠ pair.name_len) || decide (memcmp key name key_len ≠ 0)

/-- The `while` loop of `ht_get`, started at `pair`; the result is the final `pair`. -/
def ht_get_while (key : List Nat) (key_len : Nat) : List list_entry → Option list_entry
  | [] => none
  | pair :: next =>
    if ht_get_cond key key_len pair then ht_get_while key key_len next else some pair

/-- Source `ht_get`: the first test is written out before the loop, as in the source. -/
def ht_get (hash : List Nat → Nat) (hashtable : hashtable_t) (key : List Nat)
    (key_len : Nat) : Option list_entry :=
  let bin := ht_hash hash hashtable key key_len
  match hashtable.table bin with
  | [] => none
  | pair :: next =>
    if ht_get_cond key key_len pair then ht_get_while key key_len next else some pair

/-! ## The interpreter -/

/-- The scan `for (i=0; s[i]>' '; i++);`: the number of leading bytes above
`' '`, or `none` when the buffer ends before a byte `<= ' '` is read. -/
def scan : List Nat → Option Nat
  | [] => none
  | c :: s => if c > 32 then (scan s).map (· + 1) else some 0

/-- Source `create`: returns the pointer after the name and the new `wordlists`. -/
def create (hash : List Nat → Nat) (wordlists : Wordlists) (s : List Nat)
    (serialno : Nat) : Option (List Nat × Wordlists) :=
  match s with
  | [] => none
  | w :: s =>
    match scan s with
    | none => none
    | some i =>
      match (match wordlists w with
             | none => ht_create 4000
             | some hashtable => some hashtable) with
      | none => none
      | some hashtable =>
        some (s.drop i,
          fun v => if v = w then some (ht_set hash hashtable s i (toInt serialno))
                   else wordlists v)

/-- Source `set_order`: returns the pointer after the order, `order` and `order_len`. -/
def set_order (s : List Nat) : Option (List Nat × List Nat × Nat) :=
  match scan s with
  | none => none
  | some order_len => some (s.drop order_len, s, order_len)

/-- The `for (j=order_len-1; j>=0; j--)` loop of `find` with `j + 1` given:
the value left in `*foundp`. -/
def find_loop (hash : List Nat → Nat) (wordlists : Wordlists) (order : List Nat)
    (s : List Nat) (i : Nat) : Nat → Nat
  | 0 => 0
  | j + 1 =>
    match wordlists (order.getD j 0) with
    | none => find_loop hash wordlists order s i j
    | some ht =>
      match ht_get hash ht s i with
      | some l => l.serialno
      | none => find_loop hash wordlists order s i j

/-- Source `find`: returns the pointer after the name and the value of `*foundp`. -/
def find (hash : List Nat → Nat) (wordlists : Wordlists) (order : List Nat)
    (order_len : Nat) (s : List Nat) : Option (List Nat × Nat) :=
  match scan s with
  | none => none
  | some i => some (s.drop i, find_loop hash wordlists order s i order_len)

/-- The constant `k0` of `process`. -/
def k0 : Nat := 0xb64d532aaaaaaad5

/-- The two assignments to `hash` in `process` for a non-zero `found`. -/
def mix (hash found : Nat) : Nat :=
  let hash := ((hash ^^^ found) * k0) % 2 ^ 64
  hash ^^^ (hash >>> 41)

/-- The globals and the locals of `process`. -/
structure State where
  s : List Nat
  hash : Nat
  serialno : Nat
  wordlists : Wordlists
  order : List Nat
  order_len : Nat

/-- How a run of `process` ends: `return hash`, `exit(1)` after "invalid
input", or a read outside the buffer. -/
inductive Outcome where
  | returned (hash : Nat)
  | invalid
  | overrun
deriving DecidableEq, Repr

/-- One pass through the `while (1)` loop of `process`. -/
inductive Step where
  | next (st : State)
  | done (o : Outcome)

/-- The body of the `while (1)` loop of `process`: `switch (*s++)`. -/
def step (hash : List Nat → Nat) (st : State) : Step :=
  match st.s with
  | [] => .done .overrun
  | c :: s =>
    if c = 0 then .done (.returned st.hash)
    else if c = 10 then
      match create hash st.wordlists s st.serialno with
      | none => .done .overrun
      | some (s, wordlists) =>
        .next { st with s := s, wordlists := wordlists,
                        serialno := (st.serialno + 1) % 2 ^ 64 }
    else if c = 9 then
      match set_order s with
      | none => .done .overrun
      | some (s, order, order_len) =>
        .next { st with s := s, order := order, order_len := order_len }
    else if c = 32 then
      match find hash st.wordlists st.order st.order_len s with
      | none => .done .overrun
      | some (s, found) =>
        .next { st with s := s, hash := if found ≠ 0 then mix st.hash found else st.hash }
    else .done .invalid

/-- The state in which `process(s)` starts: the zero-initialised globals and
`hash = 0`, `serialno = 1`. -/
def init (s : List Nat) : State :=
  { s := s, hash := 0, serialno := 1, wordlists := fun _ => none, order := [], order_len := 0 }

/-- The `while (1)` loop of `process`, at most `fuel` passes (`none`: fuel used up). -/
def process_loop (hash : List Nat → Nat) : Nat → State → Option Outcome
  | 0, _ => none
  | fuel + 1, st =>
    match step hash st with
    | .done o => some o
    | .next st => process_loop hash fuel st

/-- Source `process`: every pass consumes a byte, so `s.length + 1` passes suffice. -/
def process (hash : List Nat → Nat) (s : List Nat) : Option Outcome :=
  process_loop hash (s.length + 1) (init s)

/-- The state after `n` passes through the loop of `process`, if it is still running. -/
def run (hash : List Nat → Nat) : Nat → State → Option State
  | 0, st => some st
  | n + 1, st =>
    match step hash st with
    | .done _ => none
    | .next st => run hash n st

/-! ## The build without `HASHTABLE`

The `#else` branches of the source: `wordlists[w]` is the head of one linked
list per wordlist.  The definitions are in the namespace `Plain`. -/

/-- The test of `search_wordlist` on an entry:
`s_len == wl->name_len && memcmp(s,wl->name,s_len)==0`. -/
def search_cond (s : List Nat) (s_len : Nat) (wl : list_entry) : Bool :=
  decide (s_len = wl.name_len) &&
    match wl.name with
    | none => false
    | some name => decide (memcmp s name s_len = 0)

/-- Source `search_wordlist`: the value it stores in `*foundp`. -/
def search_wordlist (s : List Nat) (s_len : Nat) : List list_entry → Nat
  | [] => 0
  | wl :: next =>
    if search_cond s s_len wl then wl.serialno else search_wordlist s s_len next

/-- Source `create` without `HASHTABLE`: the new entry becomes the head of the
list of the wordlist; `serialno` is stored as the `unsigned long` it is. -/
def Plain.create (wordlists : Nat → List list_entry) (s : List Nat) (serialno : Nat) :
    Option (List Nat × (Nat → List list_entry)) :=
  match s with
  | [] => none
  | w :: s =>
    match scan s with
    | none => none
    | some i =>
      some (s.drop i,
        fun v =>
          if v = w then { name := some s, name_len := i, serialno := serialno } :: wordlists w
          else wordlists v)

/-- The loop of `find` without `HASHTABLE`, with `j + 1` given: the value left
in `*foundp`. -/
def Plain.find_loop (wordlists : Nat → List list_entry) (order : List Nat) (s : List Nat)
    (i : Nat) : Nat → Nat
  | 0 => 0
  | j + 1 =>
    if search_wordlist s i (wordlists (order.getD j 0)) ≠ 0
    then search_wordlist s i (wordlists (order.getD j 0))
    else Plain.find_loop wordlists order s i j

/-- Source `find` without `HASHTABLE`. -/
def Plain.find (wordlists : Nat → List list_entry) (order : List Nat) (order_len : Nat)
    (s : List Nat) : Option (List Nat × Nat) :=
  match scan s with
  | none => none
  | some i => some (s.drop i, Plain.find_loop wordlists order s i order_len)

/-- The globals and the locals of `process` without `HASHTABLE`. -/
structure Plain.State where
  s : List Nat
  hash : Nat
  serialno : Nat
  wordlists : Nat → List list_entry
  order : List Nat
  order_len : Nat

/-- One pass through the loop of `process` without `HASHTABLE`. -/
inductive Plain.Step where
  | next (st : Plain.State)
  | done (o : Outcome)

/-- The body of the loop of `process` without `HASHTABLE`. -/
def Plain.step (st : Plain.State) : Plain.Step :=
  match st.s with
  | [] => .done .overrun
  | c :: s =>
    if c = 0 then .done (.returned st.hash)
    else if c = 10 then
      match Plain.create st.wordlists s st.serialno with
      | none => .done .overrun
      | some (s, wordlists) =>
        .next { st with s := s, wordlists := wordlists,
                        serialno := (st.serialno + 1) % 2 ^ 64 }
    else if c = 9 then
      match set_order s with
      | none => .done .overrun
      | some (s, order, order_len) =>
        .next { st with s := s, order := order, order_len := order_len }
    else if c = 32 then
      match Plain.find st.wordlists st.order st.order_len s with
      | none => .done .overrun
      | some (s, found) =>
        .next { st with s := s, hash := if found ≠ 0 then mix st.hash found else st.hash }
    else .done .invalid

/-- The state in which `process(s)` starts without `HASHTABLE`. -/
def Plain.init (s : List Nat) : Plain.State :=
  { s := s, hash := 0, serialno := 1, wordlists := fun _ => [], order := [], order_len := 0 }

/-- The loop of `process` without `HASHTABLE`, at most `fuel` passes. -/
def Plain.process_loop : Nat → Plain.State → Option Outcome
  | 0, _ => none
  | fuel + 1, st =>
    match Plain.step st with
    | .done o => some o
    | .next st => Plain.process_loop fuel st

/-- Source `process` without `HASHTABLE`. -/
def Plain.process (s : List Nat) : Option Outcome :=
  Plain.process_loop (s.length + 1) (Plain.init s)

/-- The state after `n` passes without `HASHTABLE`, if it is still running. -/
def Plain.run : Nat → Plain.State → Option Plain.State
  | 0, st => some st
  | n + 1, st =>
    match Plain.step st with
    | .done _ => none
    | .next st => Plain.run n st

/-- Source `create` with `ht_create( size )` for `ht_create( 4000 )`. -/
def Sized.create (size : Int) (hash : List Nat → Nat) (wordlists : Wordlists) (s : List Nat)
    (serialno : Nat) : Option (List Nat × Wordlists) :=
  match s with
  | [] => none
  | w :: s =>
    match scan s with
    | none => none
    | some i =>
      match (match wordlists w with
             | none => ht_create size
             | some hashtable => some hashtable) with
      | none => none
      | some hashtable =>
        some (s.drop i,
          fun v => if v = w then some (ht_set hash hashtable s i (toInt serialno))
                   else wordlists v)

/-- The body of the loop of `process`, with `Sized.create`. -/
def Sized.step (size : Int) (hash : List Nat → Nat) (st : State) : Step :=
  match st.s with
  | [] => .done .overrun
  | c :: s =>
    if c = 0 then .done (.returned st.hash)
    else if c = 10 then
      match Sized.create size hash st.wordlists s st.serialno with
      | none => .done .overrun
      | some (s, wordlists) =>
        .next { st with s := s, wordlists := wordlists,
                        serialno := (st.serialno + 1) % 2 ^ 64 }
    else if c = 9 then
      match set_order s with
      | none => .done .overrun
      | some (s, order, order_len) =>
        .next { st with s := s, order := order, order_len := order_len }
    else if c = 32 then
      match find hash st.wordlists st.order st.order_len s with
      | none => .done .overrun
      | some (s, found) =>
        .next { st with s := s, hash := if found ≠ 0 then mix st.hash found else st.hash }
    else .done .invalid

/-- The loop of `process`, with `Sized.step`. -/
def Sized.process_loop (size : Int) (hash : List Nat → Nat) : Nat → State → Option Outcome
  | 0, _ => none
  | fuel + 1, st =>
    match Sized.step size hash st with
    | .done o => some o
    | .next st => Sized.process_loop size hash fuel st

/-- Source `process`, with `Sized.step`. -/
def Sized.process (size : Int) (hash : List Nat → Nat) (s : List Nat) : Option Outcome :=
  Sized.process_loop size hash (s.length + 1) (init s)

/-- The state after `n` passes, with `Sized.step`. -/
def Sized.run (size : Int) (hash : List Nat → Nat) : Nat → State → Option State
  | 0, st => some st
  | n + 1, st =>
    match Sized.step size hash st with
    | .done _ => none
    | .next st => Sized.run size hash n st

/-- The table that `Sized.create` inserts into. -/
def Sized.tableOr (size : Int) (wordlists : Wordlists) (w : Nat) : hashtable_t :=
  match wordlists w with
  | none => { size := size, table := fun _ => [] }
  | some hashtable => hashtable

/-! ## Definitions for the statements -/

/-- The arguments of one call `ht_set(hashtable, key, key_len, serialno)`. -/
structure SetCall where
  key : List Nat
  key_len : Nat
  serialno : Int

/-- The table after the calls of `calls`, made in list order. -/
def ht_sets (hash : List Nat → Nat) (ht : hashtable_t) : List SetCall → hashtable_t
  | [] => ht
  | c :: cs => ht_sets hash (ht_set hash ht c.key c.key_len c.serialno) cs

/-- The key of the call is the name `key`, `key_len`: same length and same bytes. -/
def sameKey (key : List Nat) (key_len : Nat) (c : SetCall) : Bool :=
  decide (key_len = c.key_len ∧ key.take key_len = c.key.take key_len)

/-- The entry that the call allocates. -/
def entryOf (c : SetCall) : list_entry :=
  { name := some c.key, name_len := c.key_len, serialno := toULong c.serialno }

/-- The lookup that `find` makes for the identifier `w`: nothing when
`wordlists[w]` is `NULL`, else `ht_get` on that table. -/
def tableGet (hash : List Nat → Nat) (wordlists : Wordlists) (w : Nat) (s : List Nat)
    (i : Nat) : Option list_entry :=
  match wordlists w with
  | none => none
  | some ht => ht_get hash ht s i

/-- The input of the scenario `"\nAfoo\tA bar\tA foo"` with its end marker. -/
def scenario : List Nat :=
  [10, 65, 102, 111, 111, 9, 65, 32, 98, 97, 114, 9, 65, 32, 102, 111, 111, 0]

/-- A state in which wordlist `A` holds "x" with serial number 1 and the order is `A`. -/
def stateAx (s : List Nat) (hash : Nat) : State :=
  { s := s, hash := hash, serialno := 2,
    wordlists := fun w =>
      if w = 65 then
        some (ht_set (fun _ => 0) { size := 4000, table := fun _ => [] } [120, 0] 1 1)
      else none,
    order := [65, 32], order_len := 1 }

/-- The loop of `find` as a recursion over the identifiers in the sequence
in which the loop visits them (top of the order first); `find_loop_eq_find_list`
relates the two. -/
def find_list (hash : List Nat → Nat) (wordlists : Wordlists) (s : List Nat) (i : Nat) :
    List Nat → Nat
  | [] => 0
  | w :: ws =>
    match tableGet hash wordlists w s i with
    | some l => l.serialno
    | none => find_list hash wordlists s i ws

/-- The entry is one for the name `key`, `key_len`: same length, same bytes. -/
def entryHasName (key : List Nat) (key_len : Nat) (e : list_entry) : Bool :=
  decide (e.name_len = key_len) &&
    match e.name with
    | none => false
    | some name => decide (name.take key_len = key.take key_len)

/-- Some chain of the `size` buckets of the table has an entry for the name. -/
def tableContains (ht : hashtable_t) (key : List Nat) (key_len : Nat) : Bool :=
  (List.range ht.size.toNat).any fun b => (ht.table (b : Int)).any (entryHasName key key_len)

/-- What `create` maintains of every table: it has the 4000 buckets of
`ht_create( 4000 )` and the `name` of every entry is a pointer into the input. -/
def TableOk (ht : hashtable_t) : Prop :=
  ht.size = 4000 ∧ ∀ b e, e ∈ ht.table b → e.name ≠ none

/-- Every table of the registry is as `create` leaves it. -/
def WordlistsOk (wordlists : Wordlists) : Prop :=
  ∀ w ht, wordlists w = some ht → TableOk ht

/-- Every entry of the table is in the chain of the bucket of its name. -/
def BucketsOk (hash : List Nat → Nat) (ht : hashtable_t) : Prop :=
  ∀ b e, e ∈ ht.table b → ∃ name, e.name = some name ∧ b = ht_hash hash ht name e.name_len

/-- Whether the registry has, for the identifier `w`, a table with an entry for the name. -/
def wordlistContains (wordlists : Wordlists) (w : Nat) (key : List Nat) (key_len : Nat) :
    Bool :=
  match wordlists w with
  | none => false
  | some ht => tableContains ht key key_len

/-- The input `"\nAfoo\tA bar"` with its end marker. -/
def inputBar : List Nat := [10, 65, 102, 111, 111, 9, 65, 32, 98, 97, 114, 0]

/-- The state of `process` on `inputBar` after two passes, before the lookup of "bar". -/
def stateBar : State := (run (fun _ => 0) 2 (init inputBar)).getD (init [])

/-- The table that `create` inserts into: `wordlists[w]`, or the table of
`ht_create( 4000 )` when that is `NULL`. -/
def tableOr (wordlists : Wordlists) (w : Nat) : hashtable_t :=
  match wordlists w with
  | none => { size := 4000, table := fun _ => [] }
  | some hashtable => hashtable

/-- The pass number `k` of the run from `st0` is made and is a define command. -/
def isDefineAt (hash : List Nat → Nat) (st0 : State) (k : Nat) : Bool :=
  match run hash k st0 with
  | none => false
  | some st => decide (st.s.head? = some 10)

/-- The number of define commands among the first `n` passes of the run from `st0`. -/
def definesBefore (hash : List Nat → Nat) (st0 : State) (n : Nat) : Nat :=
  (List.range n).countP (isDefineAt hash st0)

/-- The input `n` times `"\nA"` (a define of the empty name in wordlist `A`),
then `rest`. -/
def defines : Nat → List Nat → List Nat
  | 0, rest => rest
  | n + 1, rest => 10 :: 65 :: defines n rest

/-- The input of `2^31` define commands `"\nA"`, then `"\tA"`, a lookup of the
empty name, and the end marker: `2^32 + 4` bytes. -/
def overflowInput : List Nat := defines (2 ^ 31) [9, 65, 32, 0]

/-- The input `"\nAx\nAx\nBx\tAB x"` with its end marker. -/
def inputShadow : List Nat :=
  [10, 65, 120, 10, 65, 120, 10, 66, 120, 9, 65, 66, 32, 120, 0]

/-- The shadowing property as the specification words it, for the run of
`process` on the input `s`: whenever a name is defined in wordlist `w` at pass
`n1` and again at a later pass `n2`, a lookup of the name at a pass after `n2`,
under a search order that has `w` in it, resolves to the serial number of the
second definition, and not to that of the first. -/
def ShadowingAsStated (hash : List Nat → Nat) (s : List Nat) : Prop :=
  ∀ (n1 n2 n3 : Nat) (st1 st2 st3 : State) (w : Nat) (r1 r2 r3 : List Nat) (i : Nat),
    run hash n1 (init s) = some st1 → st1.s = 10 :: w :: r1 → scan r1 = some i →
    run hash n2 (init s) = some st2 → st2.s = 10 :: w :: r2 → scan r2 = some i →
    r2.take i = r1.take i →
    run hash n3 (init s) = some st3 → st3.s = 32 :: r3 → scan r3 = some i →
    r3.take i = r1.take i →
    n1 < n2 → n2 < n3 → w ∈ st3.order.take st3.order_len →
    ∃ found, find hash st3.wordlists st3.order st3.order_len r3 = some (r3.drop i, found)
      ∧ found = st2.serialno ∧ found ≠ st1.serialno

/-- The state of the run on `inputShadow` after `n` passes. -/
def stateShadow (n : Nat) : State := (run (fun _ => 0) n (init inputShadow)).getD (init [])

/-- The inverse of `k0` modulo `2^64`. -/
def k0_inv : Nat := 0x2af58767cf9f3e7d

/-- The input `"\nAx\nAy\tA x y"` with its end marker: "x" is looked up before "y". -/
def inputXY : List Nat := [10, 65, 120, 10, 65, 121, 9, 65, 32, 120, 32, 121, 0]

/-- The input `"\nAx\nAy\tA y x"` with its end marker: "y" is looked up before "x". -/
def inputYX : List Nat := [10, 65, 120, 10, 65, 121, 9, 65, 32, 121, 32, 120, 0]

/-- The input `"\nAx x\tA x"` with its end marker. -/
def inputFirst : List Nat := [10, 65, 120, 32, 120, 9, 65, 32, 120, 0]

/-- The state of `process` on `inputFirst` after the define, before the first lookup. -/
def stateFirst : State := (run (fun _ => 0) 1 (init inputFirst)).getD (init [])

/-- Two registries, each with its bucket hash, give the same serial numbers
in the lookups of every name in every wordlist. -/
def SameLookups (hash1 hash2 : List Nat → Nat) (wl1 wl2 : Wordlists) : Prop :=
  ∀ w key1 key2 l, key1.take l = key2.take l →
    (tableGet hash1 wl1 w key1 l).map (fun e => e.serialno)
      = (tableGet hash2 wl2 w key2 l).map (fun e => e.serialno)

/-- Two states of `process` on two buffers that agree up to their first 0
byte: both read positions are `p` bytes before that 0, followed by `post1` in
the one buffer and `post2` in the other, and the states agree in all that the
bytes up to the 0 determine. -/
def SameUpToZero (hash : List Nat → Nat) (post1 post2 p : List Nat) (st1 st2 : State) :
    Prop :=
  st1.s = p ++ 0 :: post1 ∧ st2.s = p ++ 0 :: post2 ∧ 0 ∉ p
    ∧ st1.hash = st2.hash ∧ st1.serialno = st2.serialno
    ∧ st1.order_len = st2.order_len
    ∧ (∀ j, j < st1.order_len → st1.order.getD j 0 = st2.order.getD j 0)
    ∧ SameLookups hash hash st1.wordlists st2.wordlists

theorem ht_get_eq_while (hash : List Nat → Nat) (ht : hashtable_t) (key : List Nat)
    (key_len : Nat) :
    ht_get hash ht key key_len
      = ht_get_while key key_len (ht.table (ht_hash hash ht key key_len)) := by
  unfold ht_get
  cases h : ht.table (ht_hash hash ht key key_len) with
  | nil => simp [ht_get_while, h]
  | cons pair next => simp [ht_get_while, h]

theorem ht_hash_ht_set (hash : List Nat → Nat) (ht : hashtable_t) (k : List Nat) (l : Nat)
    (sn : Int) (key : List Nat) (key_len : Nat) :
    ht_hash hash (ht_set hash ht k l sn) key key_len = ht_hash hash ht key key_len := by
  simp [ht_hash, ht_set]

theorem ht_hash_congr (hash : List Nat → Nat) (ht : hashtable_t) (k key : List Nat)
    (l : Nat) (h : key.take l = k.take l) :
    ht_hash hash ht key l = ht_hash hash ht k l := by
  simp [ht_hash, h]

theorem ht_get_cond_new (key k : List Nat) (key_len l : Nat) (v : Nat) :
    ht_get_cond key key_len { name := some k, name_len := l, serialno := v }
      = !decide (key_len = l ∧ key.take key_len = k.take key_len) := by
  by_cases h1 : key_len = l <;> by_cases h2 : key.take key_len = k.take key_len <;>
    simp [ht_get_cond, memcmp, h1, h2]

/-- Lookup after an insert: the new entry when the key has the same length and
bytes, otherwise what the lookup gave before. -/
theorem ht_get_ht_set (hash : List Nat → Nat) (ht : hashtable_t) (k : List Nat) (l : Nat)
    (sn : Int) (key : List Nat) (key_len : Nat) :
    ht_get hash (ht_set hash ht k l sn) key key_len
      = if key_len = l ∧ key.take key_len = k.take key_len
        then some { name := some k, name_len := l, serialno := toULong sn }
        else ht_get hash ht key key_len := by
  rw [ht_get_eq_while, ht_get_eq_while, ht_hash_ht_set]
  by_cases hm : key_len = l ∧ key.take key_len = k.take key_len
  · obtain ⟨h1, h2⟩ := hm
    subst h1
    have hb : ht_hash hash ht key key_len = ht_hash hash ht k key_len :=
      ht_hash_congr hash ht k key key_len h2
    simp [ht_set, hb, ht_get_while, ht_get_cond_new, h2]
  · rw [if_neg hm]
    by_cases hb : ht_hash hash ht key key_len = ht_hash hash ht k l
    · simp only [ht_set, hb, if_true, ht_get_while, ht_get_cond_new]
      simp [hm]
    · simp [ht_set, hb]

theorem ht_get_ht_create (hash : List Nat → Nat) (size : Int) (ht : hashtable_t)
    (h : ht_create size = some ht) (key : List Nat) (key_len : Nat) :
    ht_get hash ht key key_len = none := by
  unfold ht_create at h
  split at h
  · simp at h
  · simp at h
    subst h
    simp [ht_get]

theorem ht_get_ht_sets (hash : List Nat → Nat) (calls : List SetCall) (ht : hashtable_t)
    (key : List Nat) (key_len : Nat) :
    ht_get hash (ht_sets hash ht calls) key key_len
      = match calls.reverse.find? (sameKey key key_len) with
        | some c => some (entryOf c)
        | none => ht_get hash ht key key_len := by
  induction calls generalizing ht with
  | nil => simp [ht_sets]
  | cons c cs ih =>
    rw [ht_sets, ih, List.reverse_cons, List.find?_append]
    cases hf : List.find? (sameKey key key_len) cs.reverse with
    | some d => simp
    | none =>
      rw [ht_get_ht_set]
      by_cases hc : sameKey key key_len c = true
      · have hc2 := hc
        simp only [sameKey, decide_eq_true_eq] at hc2
        rw [if_pos hc2]
        simp [List.find?, hc, entryOf]
      · have hc2 := hc
        simp only [sameKey, decide_eq_true_eq] at hc2
        rw [if_neg hc2]
        simp [List.find?, hc]

theorem ht_get_empty (hash : List Nat → Nat) (size : Int) (key : List Nat) (key_len : Nat) :
    ht_get hash { size := size, table := fun _ => [] } key key_len = none := by
  simp [ht_get]

/-! ## Lemmas on the resolver -/

theorem find_loop_succ (hash : List Nat → Nat) (wordlists : Wordlists) (order s : List Nat)
    (i j : Nat) :
    find_loop hash wordlists order s i (j + 1)
      = match tableGet hash wordlists (order.getD j 0) s i with
        | some l => l.serialno
        | none => find_loop hash wordlists order s i j := by
  rw [find_loop, tableGet]
  cases wordlists (order.getD j 0) with
  | none => rfl
  | some ht => cases ht_get hash ht s i <;> rfl

theorem find_loop_top (hash : List Nat → Nat) (wordlists : Wordlists) (order s : List Nat)
    (i n : Nat) :
    (∀ j e, j < n → tableGet hash wordlists (order.getD j 0) s i = some e →
        (∀ j2, j < j2 → j2 < n → tableGet hash wordlists (order.getD j2 0) s i = none) →
        find_loop hash wordlists order s i n = e.serialno)
      ∧ ((∀ j, j < n → tableGet hash wordlists (order.getD j 0) s i = none) →
        find_loop hash wordlists order s i n = 0) := by
  induction n with
  | zero =>
    refine ⟨fun j e hj => absurd hj (Nat.not_lt_zero j), fun _ => rfl⟩
  | succ n ih =>
    rw [find_loop_succ]
    cases hn : tableGet hash wordlists (order.getD n 0) s i with
    | some l =>
      refine ⟨?_, ?_⟩
      · intro j e hj he habove
        rcases Nat.lt_succ_iff_lt_or_eq.mp hj with hlt | heq
        · have := habove n hlt (Nat.lt_succ_self n)
          rw [hn] at this
          exact absurd this (by simp)
        · subst heq
          rw [hn] at he
          injection he with he
          rw [he]
      · intro hall
        have := hall n (Nat.lt_succ_self n)
        rw [hn] at this
        exact absurd this (by simp)
    | none =>
      refine ⟨?_, ?_⟩
      · intro j e hj he habove
        rcases Nat.lt_succ_iff_lt_or_eq.mp hj with hlt | heq
        · exact ih.1 j e hlt he (fun j2 h1 h2 => habove j2 h1 (Nat.lt_succ_of_lt h2))
        · subst heq
          rw [hn] at he
          exact absurd he (by simp)
      · intro hall
        exact ih.2 (fun j hj => hall j (Nat.lt_succ_of_lt hj))

theorem find_loop_eq_find_list (hash : List Nat → Nat) (wordlists : Wordlists)
    (s : List Nat) (i : Nat) (o : List Nat) :
    ∀ rest, find_loop hash wordlists (o ++ rest) s i o.length
      = find_list hash wordlists s i o.reverse := by
  induction o using List.reverseRecOn with
  | nil => intro rest; rfl
  | append_singleton o w ih =>
    intro rest
    have hget : (o ++ [w] ++ rest).getD o.length 0 = w := by
      rw [List.append_assoc, List.getD_eq_getElem?_getD,
        List.getElem?_append_right (Nat.le_refl _)]
      simp
    rw [List.length_append, List.length_singleton, find_loop_succ, hget,
      List.reverse_append, List.reverse_singleton, List.singleton_append, find_list,
      List.append_assoc, ih]

theorem find_list_filter (hash : List Nat → Nat) (wordlists : Wordlists) (s : List Nat)
    (i : Nat) (w : Nat) (hw : wordlists w = none) (o : List Nat) :
    find_list hash wordlists s i (o.filter (fun v => !decide (v = w)))
      = find_list hash wordlists s i o := by
  induction o with
  | nil => rfl
  | cons v o ih =>
    by_cases hv : v = w
    · subst hv
      have : tableGet hash wordlists v s i = none := by simp [tableGet, hw]
      simp only [List.filter, decide_True, Bool.not_true, find_list, this]
      exact ih
    · simp only [List.filter, hv, decide_False, Bool.not_false, find_list, ih]

/-! ## Lemmas on the loop of `process` -/

theorem scan_spec (s : List Nat) (i : Nat) (h : scan s = some i) :
    i < s.length ∧ (∀ b ∈ s.take i, 32 < b)
      ∧ ∃ c, (s.drop i).head? = some c ∧ c ≤ 32 := by
  induction s generalizing i with
  | nil => simp [scan] at h
  | cons c s ih =>
    rw [scan] at h
    by_cases hc : c > 32
    · rw [if_pos hc] at h
      cases hs : scan s with
      | none => simp [hs] at h
      | some k =>
        simp [hs] at h
        subst h
        obtain ⟨h1, h2, h3⟩ := ih k hs
        refine ⟨by simpa using h1, ?_, by simpa using h3⟩
        intro b hb
        simp only [List.take_succ_cons, List.mem_cons] at hb
        rcases hb with rfl | hb
        · exact hc
        · exact h2 b hb
    · rw [if_neg hc] at h
      simp at h
      subst h
      exact ⟨by simp, by simp, c, by simp, by omega⟩

theorem scan_append (q : List Nat) (c : Nat) (tail : List Nat) (hq : ∀ b ∈ q, 32 < b)
    (hc : c ≤ 32) : scan (q ++ c :: tail) = some q.length := by
  induction q with
  | nil => simp [scan]; omega
  | cons b q ih =>
    have hb : b > 32 := hq b (by simp)
    have := ih (fun x hx => hq x (by simp [hx]))
    simp [scan, hb, this]

theorem create_length (hash : List Nat → Nat) (wl wl2 : Wordlists) (s s2 : List Nat)
    (sn : Nat) (h : create hash wl s sn = some (s2, wl2)) : s2.length < s.length := by
  unfold create at h
  split at h
  · simp at h
  · rename_i w r
    split at h
    · simp at h
    · rename_i i hi
      split at h
      · simp at h
      · simp only [Option.some.injEq, Prod.mk.injEq] at h
        rw [← h.1]
        have := (scan_spec r i hi).1
        simp
        omega

theorem step_next_length (hash : List Nat → Nat) (st st2 : State)
    (h : step hash st = .next st2) : st2.s.length < st.s.length := by
  unfold step at h
  split at h
  · simp at h
  · rename_i c r hs
    rw [hs]
    split_ifs at h
    · cases hc : create hash st.wordlists r st.serialno with
      | none => simp [hc] at h
      | some p =>
        obtain ⟨s2, wl2⟩ := p
        simp only [hc, Step.next.injEq] at h
        have := create_length hash _ _ _ _ _ hc
        rw [← h]
        simp
        omega
    · cases hc : scan r with
      | none => simp [set_order, hc] at h
      | some i =>
        simp only [set_order, hc, Step.next.injEq] at h
        have := (scan_spec r i hc).1
        rw [← h]
        simp
        omega
    · cases hc : scan r with
      | none => simp [find, hc] at h
      | some i =>
        simp only [find, hc, Step.next.injEq] at h
        have := (scan_spec r i hc).1
        rw [← h]
        simp
        omega

/-- With more fuel than bytes left, the loop of `process` ends with an outcome. -/
theorem process_loop_total (hash : List Nat → Nat) (fuel : Nat) (st : State)
    (h : st.s.length < fuel) : ∃ o, process_loop hash fuel st = some o := by
  induction fuel generalizing st with
  | zero => omega
  | succ fuel ih =>
    rw [process_loop]
    cases hs : step hash st with
    | done o => exact ⟨o, rfl⟩
    | next st2 =>
      have := step_next_length hash st st2 hs
      exact ih st2 (by omega)

/-- An outcome of the loop is the outcome of the pass made in a state that the
run reaches. -/
theorem process_loop_eq_some (hash : List Nat → Nat) (fuel : Nat) (st : State) (o : Outcome) :
    process_loop hash fuel st = some o
      ↔ ∃ n st2, n < fuel ∧ run hash n st = some st2 ∧ step hash st2 = .done o := by
  induction fuel generalizing st with
  | zero => simp [process_loop]
  | succ fuel ih =>
    rw [process_loop]
    cases hs : step hash st with
    | done o2 =>
      constructor
      · intro h
        simp only [Option.some.injEq] at h
        subst h
        exact ⟨0, st, Nat.succ_pos _, rfl, hs⟩
      · rintro ⟨n, st2, _, hrun, hdone⟩
        cases n with
        | zero =>
          simp only [run, Option.some.injEq] at hrun
          subst hrun
          rw [hs] at hdone
          injection hdone with hdone
          rw [hdone]
        | succ n => simp [run, hs] at hrun
    | next st1 =>
      simp only []
      rw [ih]
      constructor
      · rintro ⟨n, st2, hn, hrun, hdone⟩
        exact ⟨n + 1, st2, by omega, by simpa [run, hs] using hrun, hdone⟩
      · rintro ⟨n, st2, hn, hrun, hdone⟩
        cases n with
        | zero =>
          simp only [run, Option.some.injEq] at hrun
          subst hrun
          rw [hs] at hdone
          cases hdone
        | succ n =>
          exact ⟨n, st2, by omega, by simpa [run, hs] using hrun, hdone⟩

theorem run_length (hash : List Nat → Nat) (n : Nat) (st st2 : State)
    (h : run hash n st = some st2) : st2.s.length + n ≤ st.s.length := by
  induction n generalizing st with
  | zero =>
    simp only [run, Option.some.injEq] at h
    subst h
    omega
  | succ n ih =>
    rw [run] at h
    cases hs : step hash st with
    | done o => simp [hs] at h
    | next st1 =>
      simp only [hs] at h
      have := ih st1 h
      have := step_next_length hash st st1 hs
      omega

/-- The outcomes of `process`, by the states that the run reaches. -/
theorem process_eq_some (hash : List Nat → Nat) (s : List Nat) (o : Outcome) :
    process hash s = some o
      ↔ ∃ n st, run hash n (init s) = some st ∧ step hash st = .done o := by
  rw [process, process_loop_eq_some]
  constructor
  · rintro ⟨n, st, _, h1, h2⟩
    exact ⟨n, st, h1, h2⟩
  · rintro ⟨n, st, h1, h2⟩
    have := run_length hash n (init s) st h1
    refine ⟨n, st, ?_, h1, h2⟩
    simp only [init] at this
    omega

theorem process_total (hash : List Nat → Nat) (s : List Nat) :
    ∃ o, process hash s = some o :=
  process_loop_total hash (s.length + 1) (init s) (by simp [init])

/-- The run split at its last pass. -/
theorem run_succ_last (hash : List Nat → Nat) (n : Nat) (st : State) :
    run hash (n + 1) st
      = match run hash n st with
        | none => none
        | some st1 =>
          match step hash st1 with
          | .done _ => none
          | .next st2 => some st2 := by
  induction n generalizing st with
  | zero =>
    simp only [run]
  | succ n ih =>
    rw [run]
    cases hs : step hash st with
    | done o => simp [run, hs]
    | next st1 =>
      simp only []
      rw [ih st1]
      conv_rhs => rw [run]
      simp [hs]

/-- Induction along the run from `st0`. -/
theorem run_induct (hash : List Nat → Nat) (st0 : State) (P : Nat → State → Prop)
    (h0 : P 0 st0)
    (hstep : ∀ k st st2, run hash k st0 = some st → step hash st = .next st2 → P k st →
      P (k + 1) st2) :
    ∀ n st, run hash n st0 = some st → P n st := by
  intro n
  induction n with
  | zero =>
    intro st h
    simp only [run, Option.some.injEq] at h
    subst h
    exact h0
  | succ n ih =>
    intro st h
    rw [run_succ_last] at h
    cases hn : run hash n st0 with
    | none => simp [hn] at h
    | some stn =>
      simp only [hn] at h
      cases hs : step hash stn with
      | done o => simp [hs] at h
      | next st2 =>
        simp only [hs, Option.some.injEq] at h
        subst h
        exact hstep n stn st2 hn hs (ih stn hn)

theorem run_add (hash : List Nat → Nat) (k m : Nat) (st : State) :
    run hash (k + m) st = (run hash k st).bind (run hash m) := by
  induction k generalizing st with
  | zero => simp [run]
  | succ k ih =>
    rw [Nat.succ_add, run, run]
    cases step hash st with
    | done o => rfl
    | next st1 => exact ih st1

/-- A state that the run passes through is not one in which `process` ends. -/
theorem run_lt_next (hash : List Nat → Nat) (n k : Nat) (st0 st stk : State)
    (hn : run hash n st0 = some st) (hk : k < n) (hrk : run hash k st0 = some stk) :
    ∃ st2, step hash stk = .next st2 := by
  obtain ⟨m, rfl⟩ : ∃ m, n = k + (m + 1) := ⟨n - k - 1, by omega⟩
  rw [run_add, hrk, Option.some_bind, run] at hn
  cases hs : step hash stk with
  | done o => simp [hs] at hn
  | next st2 => exact ⟨st2, rfl⟩

theorem step_invalid_iff (hash : List Nat → Nat) (st : State) :
    step hash st = .done .invalid
      ↔ ∃ c r, st.s = c :: r ∧ c ≠ 0 ∧ c ≠ 10 ∧ c ≠ 9 ∧ c ≠ 32 := by
  unfold step
  split
  · rename_i hs
    simp [hs]
  · rename_i c r hs
    rw [hs]
    by_cases h0 : c = 0
    · simp [h0]
    by_cases h10 : c = 10
    · subst h10
      simp only [if_neg h0, if_true]
      cases create hash st.wordlists r st.serialno <;> simp
    by_cases h9 : c = 9
    · subst h9
      simp only [if_neg h0, if_neg h10, if_true]
      cases set_order r <;> simp
    by_cases h32 : c = 32
    · subst h32
      simp only [if_neg h0, if_neg h10, if_neg h9, if_true]
      cases find hash st.wordlists st.order st.order_len r <;> simp
    · simp [h0, h10, h9, h32]

theorem step_returned_iff (hash : List Nat → Nat) (st : State) (h : Nat) :
    step hash st = .done (.returned h) ↔ ∃ r, st.s = 0 :: r ∧ st.hash = h := by
  unfold step
  split
  · rename_i hs
    simp [hs]
  · rename_i c r hs
    rw [hs]
    by_cases h0 : c = 0
    · simp [h0]
    by_cases h10 : c = 10
    · subst h10
      simp only [if_neg h0, if_true]
      cases create hash st.wordlists r st.serialno <;> simp
    by_cases h9 : c = 9
    · subst h9
      simp only [if_neg h0, if_neg h10, if_true]
      cases set_order r <;> simp
    by_cases h32 : c = 32
    · subst h32
      simp only [if_neg h0, if_neg h10, if_neg h9, if_true]
      cases find hash st.wordlists st.order st.order_len r <;> simp
    · simp [h0, h10, h9, h32]

/-- A pass for a command other than set-order leaves `order` and `order_len`. -/
theorem step_order_frame (hash : List Nat → Nat) (st st2 : State)
    (h : step hash st = .next st2) (h9 : ∀ r, st.s ≠ 9 :: r) :
    st2.order = st.order ∧ st2.order_len = st.order_len := by
  unfold step at h
  split at h
  · simp at h
  · rename_i c r hs
    split_ifs at h with h0 h10 h9c h32
    · cases hf : create hash st.wordlists r st.serialno with
      | none => simp [hf] at h
      | some p =>
        simp only [hf, Step.next.injEq] at h
        rw [← h]
        exact ⟨rfl, rfl⟩
    · subst h9c
      exact absurd hs (h9 r)
    · cases hf : find hash st.wordlists st.order st.order_len r with
      | none => simp [hf] at h
      | some p =>
        simp only [hf, Step.next.injEq] at h
        rw [← h]
        exact ⟨rfl, rfl⟩

theorem run_order_frame (hash : List Nat → Nat) (m : Nat) (st1 st2 : State)
    (hrun : run hash m st1 = some st2)
    (h9 : ∀ k stk, k < m → run hash k st1 = some stk → ∀ r, stk.s ≠ 9 :: r) :
    st2.order = st1.order ∧ st2.order_len = st1.order_len := by
  induction m generalizing st2 with
  | zero =>
    simp only [run, Option.some.injEq] at hrun
    subst hrun
    exact ⟨rfl, rfl⟩
  | succ m ih =>
    rw [run_succ_last] at hrun
    cases hm : run hash m st1 with
    | none => simp [hm] at hrun
    | some stm =>
      simp only [hm] at hrun
      cases hs : step hash stm with
      | done o => simp [hs] at hrun
      | next st3 =>
        simp only [hs, Option.some.injEq] at hrun
        subst hrun
        have h1 := ih stm hm (fun k stk hk => h9 k stk (Nat.lt_succ_of_lt hk))
        have h2 := step_order_frame hash stm st3 hs (h9 m stm (Nat.lt_succ_self m) hm)
        exact ⟨h2.1.trans h1.1, h2.2.trans h1.2⟩

/-! ## What holds of every state that a run reaches -/

theorem tableOk_ht_set (hash : List Nat → Nat) (ht : hashtable_t) (k : List Nat) (l : Nat)
    (sn : Int) (h : TableOk ht) : TableOk (ht_set hash ht k l sn) := by
  refine ⟨h.1, ?_⟩
  intro b e he
  simp only [ht_set] at he
  split_ifs at he with hb
  · rcases List.mem_cons.mp he with rfl | he
    · simp
    · exact h.2 _ e he
  · exact h.2 b e he

theorem tableOk_ht_create (ht : hashtable_t) (h : ht_create 4000 = some ht) : TableOk ht := by
  simp [ht_create] at h
  subst h
  exact ⟨rfl, by simp⟩

theorem wordlistsOk_create (hash : List Nat → Nat) (wl wl2 : Wordlists) (s s2 : List Nat)
    (sn : Nat) (h : create hash wl s sn = some (s2, wl2)) (hok : WordlistsOk wl) :
    WordlistsOk wl2 := by
  unfold create at h
  split at h
  · simp at h
  · rename_i w r
    split at h
    · simp at h
    · rename_i i hi
      split at h
      · simp at h
      · rename_i ht hht
        simp only [Option.some.injEq, Prod.mk.injEq] at h
        rw [← h.2]
        intro v hv hvw
        by_cases hvv : v = w
        · simp only [hvv, if_true, Option.some.injEq] at hvw
          rw [← hvw]
          apply tableOk_ht_set
          cases hw : wl w with
          | none =>
            rw [hw] at hht
            exact tableOk_ht_create ht hht
          | some ht0 =>
            rw [hw] at hht
            simp only [Option.some.injEq] at hht
            rw [← hht]
            exact hok w ht0 hw
        · simp only [hvv, if_false] at hvw
          exact hok v hv hvw

theorem wordlistsOk_step (hash : List Nat → Nat) (st st2 : State)
    (h : step hash st = .next st2) (hok : WordlistsOk st.wordlists) :
    WordlistsOk st2.wordlists := by
  unfold step at h
  split at h
  · simp at h
  · rename_i c r hs
    split_ifs at h
    · cases hf : create hash st.wordlists r st.serialno with
      | none => simp [hf] at h
      | some p =>
        obtain ⟨s2, wl2⟩ := p
        simp only [hf, Step.next.injEq] at h
        rw [← h]
        exact wordlistsOk_create hash _ _ _ _ _ hf hok
    · cases hf : set_order r with
      | none => simp [hf] at h
      | some p =>
        simp only [hf, Step.next.injEq] at h
        rw [← h]
        exact hok
    · cases hf : find hash st.wordlists st.order st.order_len r with
      | none => simp [hf] at h
      | some p =>
        simp only [hf, Step.next.injEq] at h
        rw [← h]
        exact hok

theorem wordlistsOk_run (hash : List Nat → Nat) (n : Nat) (st st2 : State)
    (h : run hash n st = some st2) (hok : WordlistsOk st.wordlists) :
    WordlistsOk st2.wordlists := by
  induction n generalizing st with
  | zero =>
    simp only [run, Option.some.injEq] at h
    subst h
    exact hok
  | succ n ih =>
    rw [run] at h
    cases hs : step hash st with
    | done o => simp [hs] at h
    | next st1 =>
      simp only [hs] at h
      exact ih st1 h (wordlistsOk_step hash st st1 hs hok)

theorem wordlistsOk_init (s : List Nat) : WordlistsOk (init s).wordlists := by
  intro w ht h
  simp [init] at h

theorem toULong_4000 : toULong 4000 = 4000 := by decide

/-- On a table of 4000 buckets `ht_hash` is the index of one of them. -/
theorem ht_hash_range (hash : List Nat → Nat) (ht : hashtable_t) (key : List Nat)
    (key_len : Nat) (h : ht.size = 4000) :
    ∃ b : Nat, b < 4000 ∧ ht_hash hash ht key key_len = (b : Int) := by
  refine ⟨hash (key.take key_len) % 2 ^ 64 % 4000, Nat.mod_lt _ (by norm_num), ?_⟩
  have hlt : hash (key.take key_len) % 2 ^ 64 % 4000 < 4000 := Nat.mod_lt _ (by norm_num)
  have h32 : hash (key.take key_len) % 2 ^ 64 % 4000 % 2 ^ 32
      = hash (key.take key_len) % 2 ^ 64 % 4000 := Nat.mod_eq_of_lt (by omega)
  simp only [ht_hash, h, toULong_4000, toInt, h32]
  rw [if_pos (by omega)]

theorem ht_get_while_none (key : List Nat) (key_len : Nat) (chain : List list_entry)
    (hname : ∀ e ∈ chain, e.name ≠ none)
    (hno : ∀ e ∈ chain, entryHasName key key_len e = false) :
    ht_get_while key key_len chain = none := by
  induction chain with
  | nil => rfl
  | cons e chain ih =>
    have h1 := hname e (by simp)
    have h2 := hno e (by simp)
    have hcond : ht_get_cond key key_len e = true := by
      cases hn : e.name with
      | none => exact absurd hn h1
      | some nm =>
        simp only [entryHasName, hn, Bool.and_eq_false_iff, decide_eq_false_iff_not] at h2
        simp only [ht_get_cond, hn, memcmp, Bool.or_eq_true, decide_eq_true_eq]
        rcases h2 with h2 | h2
        · exact Or.inl (fun h => h2 h.symm)
        · right
          rw [if_neg (fun h => h2 h.symm)]
          decide
    rw [ht_get_while, if_pos hcond]
    exact ih (fun e he => hname e (by simp [he])) (fun e he => hno e (by simp [he]))

/-- A table that has no entry for the name gives `NULL` in `ht_get`. -/
theorem ht_get_none_of_not_contains (hash : List Nat → Nat) (ht : hashtable_t)
    (key : List Nat) (key_len : Nat) (hok : TableOk ht)
    (hno : tableContains ht key key_len = false) :
    ht_get hash ht key key_len = none := by
  obtain ⟨b, hb, hbin⟩ := ht_hash_range hash ht key key_len hok.1
  rw [ht_get_eq_while, hbin]
  apply ht_get_while_none
  · intro e he
    exact hok.2 _ e he
  · intro e he
    simp only [tableContains, hok.1, List.any_eq_false] at hno
    have := hno b (by simpa using hb)
    simp only [List.any_eq_true, not_exists, not_and] at this
    simpa using this e he

theorem bucketsOk_ht_set (hash : List Nat → Nat) (ht : hashtable_t) (k : List Nat) (l : Nat)
    (sn : Int) (h : BucketsOk hash ht) : BucketsOk hash (ht_set hash ht k l sn) := by
  intro b e he
  have hh : ∀ name len, ht_hash hash (ht_set hash ht k l sn) name len
      = ht_hash hash ht name len := fun name len => ht_hash_ht_set hash ht k l sn name len
  simp only [ht_set] at he
  split_ifs at he with hb
  · rcases List.mem_cons.mp he with rfl | he
    · exact ⟨k, rfl, by rw [hh]; exact hb⟩
    · obtain ⟨name, h1, h2⟩ := h _ e he
      exact ⟨name, h1, by rw [hh, hb]; exact h2⟩
  · obtain ⟨name, h1, h2⟩ := h b e he
    exact ⟨name, h1, by rw [hh]; exact h2⟩

theorem bucketsOk_create (hash : List Nat → Nat) (wl wl2 : Wordlists) (s s2 : List Nat)
    (sn : Nat) (h : create hash wl s sn = some (s2, wl2))
    (hok : ∀ w ht, wl w = some ht → BucketsOk hash ht) :
    ∀ w ht, wl2 w = some ht → BucketsOk hash ht := by
  unfold create at h
  split at h
  · simp at h
  · rename_i w r
    split at h
    · simp at h
    · rename_i i hi
      split at h
      · simp at h
      · rename_i ht hht
        simp only [Option.some.injEq, Prod.mk.injEq] at h
        rw [← h.2]
        intro v hv hvw
        by_cases hvv : v = w
        · simp only [hvv, if_true, Option.some.injEq] at hvw
          rw [← hvw]
          apply bucketsOk_ht_set
          cases hw : wl w with
          | none =>
            rw [hw] at hht
            simp [ht_create] at hht
            subst hht
            intro b e he
            simp at he
          | some ht0 =>
            rw [hw] at hht
            simp only [Option.some.injEq] at hht
            rw [← hht]
            exact hok w ht0 hw
        · simp only [hvv, if_false] at hvw
          exact hok v hv hvw

theorem bucketsOk_run (hash : List Nat → Nat) (s : List Nat) :
    ∀ n st, run hash n (init s) = some st → ∀ w ht, st.wordlists w = some ht →
      BucketsOk hash ht := by
  apply run_induct
  · intro w ht h
    simp [init] at h
  · intro k st st2 _ hstep ih
    unfold step at hstep
    split at hstep
    · simp at hstep
    · rename_i c r hs
      split_ifs at hstep
      · cases hf : create hash st.wordlists r st.serialno with
        | none => simp [hf] at hstep
        | some p =>
          obtain ⟨s2, wl2⟩ := p
          simp only [hf, Step.next.injEq] at hstep
          rw [← hstep]
          exact bucketsOk_create hash _ _ _ _ _ hf ih
      · cases hf : set_order r with
        | none => simp [hf] at hstep
        | some p =>
          simp only [hf, Step.next.injEq] at hstep
          rw [← hstep]
          exact ih
      · cases hf : find hash st.wordlists st.order st.order_len r with
        | none => simp [hf] at hstep
        | some p =>
          simp only [hf, Step.next.injEq] at hstep
          rw [← hstep]
          exact ih

theorem ht_get_cond_eq_false (key : List Nat) (l : Nat) (e : list_entry) (name : List Nat)
    (hn : e.name = some name) :
    ht_get_cond key l e = false ↔ entryHasName key l e = true := by
  simp only [ht_get_cond, hn, memcmp, entryHasName, Bool.or_eq_false_iff,
    decide_eq_false_iff_not, Bool.and_eq_true, decide_eq_true_eq, not_not]
  constructor
  · rintro ⟨h1, h2⟩
    refine ⟨h1.symm, ?_⟩
    by_contra hne
    rw [if_neg (fun h => hne h.symm)] at h2
    exact absurd h2 (by decide)
  · rintro ⟨h1, h2⟩
    refine ⟨h1.symm, ?_⟩
    rw [if_pos h2.symm]

theorem ht_get_while_cond (key : List Nat) (l : Nat) (chain : List list_entry)
    (e : list_entry) (h : ht_get_while key l chain = some e) :
    ht_get_cond key l e = false := by
  induction chain with
  | nil => simp [ht_get_while] at h
  | cons x chain ih =>
    rw [ht_get_while] at h
    split_ifs at h with hx
    · exact ih h
    · simp only [Option.some.injEq] at h
      rw [← h]
      simpa using hx

theorem ht_get_while_isSome (key : List Nat) (l : Nat) (chain : List list_entry)
    (e : list_entry) (he : e ∈ chain) (hc : ht_get_cond key l e = false) :
    (ht_get_while key l chain).isSome = true := by
  induction chain with
  | nil => simp at he
  | cons x chain ih =>
    rw [ht_get_while]
    split_ifs with hx
    · rcases List.mem_cons.mp he with rfl | h
      · rw [hc] at hx
        exact absurd hx (by decide)
      · exact ih h
    · rfl

/-- On a table as `create` leaves it, `ht_get` finds an entry exactly when some
chain of the table has an entry for the name. -/
theorem ht_get_isSome_iff (hash : List Nat → Nat) (ht : hashtable_t) (key : List Nat)
    (l : Nat) (hok : TableOk ht) (hb : BucketsOk hash ht) :
    (ht_get hash ht key l).isSome = tableContains ht key l := by
  obtain ⟨b, hlt, hbin⟩ := ht_hash_range hash ht key l hok.1
  cases hc : tableContains ht key l with
  | false =>
    rw [ht_get_none_of_not_contains hash ht key l hok hc]
    rfl
  | true =>
    simp only [tableContains, hok.1, List.any_eq_true, List.mem_range] at hc
    obtain ⟨b2, _, e, he, hname⟩ := hc
    obtain ⟨name, hn, hbk⟩ := hb _ e he
    have hmatch := hname
    simp only [entryHasName, hn, Bool.and_eq_true, decide_eq_true_eq] at hmatch
    have hsame : ht_hash hash ht key l = ht_hash hash ht name e.name_len := by
      rw [hmatch.1]
      exact ht_hash_congr hash ht name key l hmatch.2.symm
    rw [ht_get_eq_while, hsame, ← hbk]
    exact ht_get_while_isSome key l _ e he ((ht_get_cond_eq_false key l e name hn).mpr hname)

/-- In every state that a run reaches, the lookup that `find` makes in a
wordlist finds an entry exactly when the table of the wordlist has one for the
name. -/
theorem tableGet_isSome_iff (hash : List Nat → Nat) (s : List Nat) (n : Nat) (st : State)
    (hrun : run hash n (init s) = some st) (w : Nat) (key : List Nat) (l : Nat) :
    (tableGet hash st.wordlists w key l).isSome = wordlistContains st.wordlists w key l := by
  unfold tableGet wordlistContains
  cases hw : st.wordlists w with
  | none => rfl
  | some ht =>
    exact ht_get_isSome_iff hash ht key l
      (wordlistsOk_run hash n (init s) st hrun (wordlistsOk_init s) w ht hw)
      (bucketsOk_run hash s n st hrun w ht hw)

/-! ## The define command -/

theorem create_eq (hash : List Nat → Nat) (wl : Wordlists) (w : Nat) (r : List Nat) (i : Nat)
    (sn : Nat) (hi : scan r = some i) :
    create hash wl (w :: r) sn
      = some (r.drop i,
          fun v => if v = w then some (ht_set hash (tableOr wl w) r i (toInt sn)) else wl v) := by
  unfold create tableOr
  simp only [hi]
  cases wl w with
  | none => simp [ht_create]
  | some ht => rfl

/-- The pass for a define command whose name ends inside the buffer. -/
theorem step_define (hash : List Nat → Nat) (st : State) (w : Nat) (r : List Nat) (i : Nat)
    (hs : st.s = 10 :: w :: r) (hi : scan r = some i) :
    step hash st = .next
      { st with
        s := r.drop i
        wordlists := fun v =>
          if v = w then some (ht_set hash (tableOr st.wordlists w) r i (toInt st.serialno))
          else st.wordlists v
        serialno := (st.serialno + 1) % 2 ^ 64 } := by
  simp [step, hs, create_eq hash st.wordlists w r i st.serialno hi]

/-- A pass that is made for a define command is as in `step_define`. -/
theorem step_define_inv (hash : List Nat → Nat) (st st2 : State)
    (h : step hash st = .next st2) (hd : st.s.head? = some 10) :
    ∃ w r i, st.s = 10 :: w :: r ∧ scan r = some i := by
  unfold step at h
  split at h
  · simp at h
  · rename_i c r0 hs
    rw [hs] at hd
    simp only [List.head?_cons, Option.some.injEq] at hd
    subst hd
    simp only [show ¬ (10 : Nat) = 0 by decide, if_false, if_true] at h
    cases r0 with
    | nil => simp [create] at h
    | cons w r =>
      cases hi : scan r with
      | none => simp [create, hi] at h
      | some i => exact ⟨w, r, i, hs, hi⟩

/-- A pass for another command leaves the registry and the serial counter. -/
theorem step_other_frame (hash : List Nat → Nat) (st st2 : State)
    (h : step hash st = .next st2) (hd : st.s.head? ≠ some 10) :
    st2.wordlists = st.wordlists ∧ st2.serialno = st.serialno := by
  unfold step at h
  split at h
  · simp at h
  · rename_i c r hs
    rw [hs] at hd
    simp only [List.head?_cons, ne_eq, Option.some.injEq] at hd
    split_ifs at h
    · cases hf : set_order r with
      | none => simp [hf] at h
      | some p =>
        simp only [hf, Step.next.injEq] at h
        rw [← h]
        exact ⟨rfl, rfl⟩
    · cases hf : find hash st.wordlists st.order st.order_len r with
      | none => simp [hf] at h
      | some p =>
        simp only [hf, Step.next.injEq] at h
        rw [← h]
        exact ⟨rfl, rfl⟩

theorem mem_ht_set (hash : List Nat → Nat) (ht : hashtable_t) (k : List Nat) (l : Nat)
    (sn : Int) (b : Int) (e : list_entry) (he : e ∈ (ht_set hash ht k l sn).table b) :
    e = { name := some k, name_len := l, serialno := toULong sn } ∨ e ∈ ht.table b := by
  simp only [ht_set] at he
  split_ifs at he with hb
  · rcases List.mem_cons.mp he with rfl | he
    · exact Or.inl rfl
    · exact Or.inr (hb ▸ he)
  · exact Or.inr he

theorem ht_get_congr (hash : List Nat → Nat) (ht : hashtable_t) (key key2 : List Nat)
    (l : Nat) (h : key.take l = key2.take l) :
    ht_get hash ht key l = ht_get hash ht key2 l := by
  rw [ht_get_eq_while, ht_get_eq_while, ht_hash_congr hash ht key2 key l h]
  generalize ht.table (ht_hash hash ht key2 l) = chain
  induction chain with
  | nil => rfl
  | cons e chain ih =>
    have : ht_get_cond key l e = ht_get_cond key2 l e := by
      simp [ht_get_cond, memcmp, h]
    rw [ht_get_while, ht_get_while, this, ih]

theorem tableGet_congr (hash : List Nat → Nat) (wl : Wordlists) (w : Nat) (key key2 : List Nat)
    (l : Nat) (h : key.take l = key2.take l) :
    tableGet hash wl w key l = tableGet hash wl w key2 l := by
  unfold tableGet
  cases wl w with
  | none => rfl
  | some ht => exact ht_get_congr hash ht key key2 l h

theorem tableGet_tableOr (hash : List Nat → Nat) (wl : Wordlists) (w : Nat) (key : List Nat)
    (l : Nat) : ht_get hash (tableOr wl w) key l = tableGet hash wl w key l := by
  unfold tableOr tableGet
  cases wl w with
  | none => exact ht_get_empty hash 4000 key l
  | some ht => rfl

/-- The lookups in the registry after a define of the name `r`, `i` in `w`. -/
theorem tableGet_define (hash : List Nat → Nat) (wl : Wordlists) (w : Nat) (r : List Nat)
    (i : Nat) (sn : Int) (v : Nat) (key : List Nat) (l : Nat) :
    tableGet hash (fun u => if u = w then some (ht_set hash (tableOr wl w) r i sn) else wl u)
        v key l
      = if v = w ∧ l = i ∧ key.take l = r.take l
        then some { name := some r, name_len := i, serialno := toULong sn }
        else tableGet hash wl v key l := by
  by_cases hv : v = w
  · subst hv
    simp only [tableGet, if_true, true_and]
    rw [ht_get_ht_set, tableGet_tableOr]
    rfl
  · simp [tableGet, hv]

theorem scan_defines (n : Nat) (rest : List Nat) (hrest : scan rest = some 0) :
    scan (defines n rest) = some 0 := by
  cases n with
  | zero => exact hrest
  | succ n => simp [defines, scan]

/-- The pass of `step_define`, by the fields of the next state. -/
theorem step_define_fields (hash : List Nat → Nat) (st : State) (w : Nat) (r : List Nat)
    (i : Nat) (hs : st.s = 10 :: w :: r) (hi : scan r = some i) :
    ∃ st1, step hash st = .next st1 ∧ st1.s = r.drop i ∧ st1.hash = st.hash
      ∧ st1.order = st.order ∧ st1.order_len = st.order_len
      ∧ st1.serialno = (st.serialno + 1) % 2 ^ 64
      ∧ st1.wordlists = fun v =>
          if v = w then some (ht_set hash (tableOr st.wordlists w) r i (toInt st.serialno))
          else st.wordlists v :=
  ⟨_, step_define hash st w r i hs hi, rfl, rfl, rfl, rfl, rfl, rfl⟩

/-- The run over `n + 1` define commands `"\nA"`: the lookup of the empty name
in wordlist `A` then gives the entry of the last of them. -/
theorem run_defines (hash : List Nat → Nat) (rest : List Nat) (hrest : scan rest = some 0)
    (n : Nat) :
    ∀ st : State, st.s = defines (n + 1) rest → st.serialno + n + 1 < 2 ^ 64 →
      ∃ st2, run hash (n + 1) st = some st2 ∧ st2.s = rest ∧ st2.hash = st.hash
        ∧ st2.order = st.order ∧ st2.order_len = st.order_len
        ∧ st2.serialno = st.serialno + n + 1
        ∧ ∀ key, (tableGet hash st2.wordlists 65 key 0).map (fun e => e.serialno)
            = some (toULong (toInt (st.serialno + n))) := by
  induction n with
  | zero =>
    intro st hs hlt
    obtain ⟨st1, hstep, g1, g2, g3, g4, g5, g6⟩ :=
      step_define_fields hash st 65 rest 0 hs hrest
    refine ⟨st1, by simp only [run, hstep], by simpa using g1, g2, g3, g4, ?_, ?_⟩
    · rw [g5]
      exact Nat.mod_eq_of_lt (by omega)
    · intro key
      rw [g6, tableGet_define]
      simp
  | succ n ih =>
    intro st hs hlt
    obtain ⟨st1, hstep, g1, g2, g3, g4, g5, g6⟩ :=
      step_define_fields hash st 65 (defines (n + 1) rest) 0 hs
        (scan_defines (n + 1) rest hrest)
    have hser : st1.serialno = st.serialno + 1 := by
      rw [g5]
      exact Nat.mod_eq_of_lt (by omega)
    obtain ⟨st2, h1, h2, h3, h4, h5, h6, h7⟩ := ih st1 (by simpa using g1) (by omega)
    refine ⟨st2, ?_, h2, h3.trans g2, h4.trans g3, h5.trans g4, by omega, ?_⟩
    · rw [run]
      simp only [hstep]
      exact h1
    · intro key
      rw [h7 key, hser]
      congr 3
      omega

/-! ## Serial numbers along a run -/

theorem definesBefore_succ (hash : List Nat → Nat) (st0 : State) (k : Nat) :
    definesBefore hash st0 (k + 1)
      = definesBefore hash st0 k + if isDefineAt hash st0 k then 1 else 0 := by
  simp [definesBefore, List.range_succ, List.countP_singleton]

theorem definesBefore_mono (hash : List Nat → Nat) (st0 : State) (k n : Nat) (h : k ≤ n) :
    definesBefore hash st0 k ≤ definesBefore hash st0 n := by
  induction n with
  | zero =>
    have : k = 0 := by omega
    subst this
    exact Nat.le_refl _
  | succ n ih =>
    rcases Nat.lt_or_ge k (n + 1) with hlt | hge
    · have := ih (by omega)
      rw [definesBefore_succ]
      omega
    · have : k = n + 1 := by omega
      subst this
      exact Nat.le_refl _

theorem definesBefore_define (hash : List Nat → Nat) (st0 st : State) (k : Nat)
    (hrun : run hash k st0 = some st) (hd : st.s.head? = some 10) :
    definesBefore hash st0 (k + 1) = definesBefore hash st0 k + 1 := by
  rw [definesBefore_succ]
  simp [isDefineAt, hrun, hd]

theorem definesBefore_other (hash : List Nat → Nat) (st0 st : State) (k : Nat)
    (hrun : run hash k st0 = some st) (hd : st.s.head? ≠ some 10) :
    definesBefore hash st0 (k + 1) = definesBefore hash st0 k := by
  rw [definesBefore_succ]
  simp [isDefineAt, hrun, hd]

/-- A serial number below `2^31` passes through the `int` parameter unchanged. -/
theorem toULong_toInt_small (n : Nat) (h : n < 2 ^ 31) : toULong (toInt n) = n := by
  have h32 : n % 2 ^ 32 = n := Nat.mod_eq_of_lt (by omega)
  simp only [toInt, h32]
  rw [if_pos h]
  simp only [toULong]
  have : ((n : Int) % 2 ^ 64) = (n : Int) := Int.emod_eq_of_lt (by omega) (by omega)
  rw [this]
  simp

/-- The two kinds of pass that go on: a define command, or a command that
leaves the registry and the serial counter. -/
theorem step_cases (hash : List Nat → Nat) (st st2 : State) (h : step hash st = .next st2) :
    (∃ w r i, st.s = 10 :: w :: r ∧ scan r = some i
        ∧ st2.serialno = (st.serialno + 1) % 2 ^ 64
        ∧ st2.wordlists = fun v =>
            if v = w then some (ht_set hash (tableOr st.wordlists w) r i (toInt st.serialno))
            else st.wordlists v)
      ∨ (st.s.head? ≠ some 10 ∧ st2.wordlists = st.wordlists
          ∧ st2.serialno = st.serialno) := by
  by_cases hd : st.s.head? = some 10
  · left
    obtain ⟨w, r, i, hs, hi⟩ := step_define_inv hash st st2 h hd
    obtain ⟨st1, hstep, _, _, _, _, g5, g6⟩ := step_define_fields hash st w r i hs hi
    rw [h] at hstep
    injection hstep with hstep
    subst hstep
    exact ⟨w, r, i, hs, hi, g5, g6⟩
  · right
    exact ⟨hd, step_other_frame hash st st2 h hd⟩

/-- The entries of the registry after a define: the new one, in `w`, and the old ones. -/
theorem mem_define (hash : List Nat → Nat) (wl : Wordlists) (w : Nat) (r : List Nat) (i : Nat)
    (sn : Int) (v : Nat) (ht : hashtable_t) (b : Int) (e : list_entry)
    (hv : (fun u => if u = w then some (ht_set hash (tableOr wl w) r i sn) else wl u) v
      = some ht)
    (he : e ∈ ht.table b) :
    (v = w ∧ e = { name := some r, name_len := i, serialno := toULong sn })
      ∨ ∃ ht0, wl v = some ht0 ∧ e ∈ ht0.table b := by
  by_cases hvw : v = w
  · subst hvw
    simp only [if_true, Option.some.injEq] at hv
    rw [← hv] at he
    rcases mem_ht_set hash _ r i sn b e he with h | h
    · exact Or.inl ⟨rfl, h⟩
    · right
      unfold tableOr at h
      cases hw : wl v with
      | none => simp [hw] at h
      | some ht0 =>
        simp only [hw] at h
        exact ⟨ht0, rfl, h⟩
  · simp only [hvw, if_false] at hv
    exact Or.inr ⟨ht, hv, he⟩

/-- While fewer than `2^31` define commands have been made, the serial counter
is their number plus one and every entry of the registry has the number of
the define command that stored it, from 1 to that number. -/
theorem serialno_invariant (hash : List Nat → Nat) (s : List Nat) :
    ∀ n st, run hash n (init s) = some st → definesBefore hash (init s) n < 2 ^ 31 →
      st.serialno = definesBefore hash (init s) n + 1
        ∧ ∀ v ht b e, st.wordlists v = some ht → e ∈ ht.table b →
            1 ≤ e.serialno ∧ e.serialno ≤ definesBefore hash (init s) n := by
  apply run_induct
  · intro _
    refine ⟨by simp [init, definesBefore], ?_⟩
    intro v ht b e hv
    simp [init] at hv
  · intro k st st2 hrun hstep ih hlt
    have hmono := definesBefore_mono hash (init s) k (k + 1) (Nat.le_succ k)
    obtain ⟨hser, hent⟩ := ih (by omega)
    rcases step_cases hash st st2 hstep with ⟨w, r, i, hs, hi, g5, g6⟩ | ⟨hd, g1, g2⟩
    · have hcnt := definesBefore_define hash (init s) st k hrun (by simp [hs])
      rw [hcnt] at hlt ⊢
      refine ⟨?_, ?_⟩
      · rw [g5, hser]
        exact Nat.mod_eq_of_lt (by omega)
      · intro v ht b e hv he
        rw [g6] at hv
        rcases mem_define hash st.wordlists w r i _ v ht b e hv he with
          ⟨_, h⟩ | ⟨ht0, h0, h1⟩
        · rw [h]
          simp only
          rw [toULong_toInt_small _ (by omega), hser]
          omega
        · have := hent v ht0 b e h0 h1
          omega
    · have hcnt := definesBefore_other hash (init s) st k hrun hd
      rw [hcnt]
      refine ⟨by rw [g2, hser], ?_⟩
      intro v ht b e hv he
      rw [g1] at hv
      exact hent v ht b e hv he

/-! ## Shadowing -/

theorem ht_get_while_mem (key : List Nat) (l : Nat) (chain : List list_entry) (e : list_entry)
    (h : ht_get_while key l chain = some e) : e ∈ chain := by
  induction chain with
  | nil => simp [ht_get_while] at h
  | cons x chain ih =>
    rw [ht_get_while] at h
    split_ifs at h
    · exact List.mem_cons_of_mem _ (ih h)
    · simp only [Option.some.injEq] at h
      rw [h]
      exact List.mem_cons_self _ _

/-- What `find` looks up in a wordlist is an entry of the table of that wordlist. -/
theorem tableGet_mem (hash : List Nat → Nat) (wl : Wordlists) (v : Nat) (key : List Nat)
    (l : Nat) (e : list_entry) (h : tableGet hash wl v key l = some e) :
    ∃ ht b, wl v = some ht ∧ e ∈ ht.table b := by
  unfold tableGet at h
  cases hv : wl v with
  | none => simp [hv] at h
  | some ht =>
    simp only [hv] at h
    rw [ht_get_eq_while] at h
    exact ⟨ht, _, rfl, ht_get_while_mem key l _ e h⟩

/-- The value that the loop of `find` leaves: 0 when no lookup finds the name,
else the serial number that some lookup gives. -/
theorem find_loop_cases (hash : List Nat → Nat) (wl : Wordlists) (order s : List Nat)
    (i n : Nat) :
    (find_loop hash wl order s i n = 0
        ∧ ∀ j, j < n → tableGet hash wl (order.getD j 0) s i = none)
      ∨ ∃ j e, j < n ∧ tableGet hash wl (order.getD j 0) s i = some e
          ∧ find_loop hash wl order s i n = e.serialno := by
  induction n with
  | zero => exact Or.inl ⟨rfl, fun j hj => absurd hj (Nat.not_lt_zero j)⟩
  | succ n ih =>
    rw [find_loop_succ]
    cases hn : tableGet hash wl (order.getD n 0) s i with
    | some e => exact Or.inr ⟨n, e, Nat.lt_succ_self n, hn, rfl⟩
    | none =>
      rcases ih with ⟨h0, hall⟩ | ⟨j, e, hj, he, hf⟩
      · left
        refine ⟨h0, ?_⟩
        intro j hj
        rcases Nat.lt_succ_iff_lt_or_eq.mp hj with hlt | heq
        · exact hall j hlt
        · rw [heq]
          exact hn
      · exact Or.inr ⟨j, e, Nat.lt_succ_of_lt hj, he, hf⟩

/-- After the define at pass `n1` into `w`, no entry of another wordlist has
the serial number of that define. -/
theorem shadow_other_wordlists (hash : List Nat → Nat) (s : List Nat) (n1 : Nat) (st1 : State)
    (w : Nat) (r1 : List Nat) (h1 : run hash n1 (init s) = some st1)
    (hs1 : st1.s = 10 :: w :: r1) :
    ∀ k st, run hash k (init s) = some st → definesBefore hash (init s) k < 2 ^ 31 →
      n1 < k → ∀ v ht b e, v ≠ w → st.wordlists v = some ht → e ∈ ht.table b →
        e.serialno ≠ st1.serialno := by
  apply run_induct
  · intro _ h
    exact absurd h (Nat.not_lt_zero n1)
  · intro k st st2 hrun hstep ih hlt hk v ht b e hvw hv he
    have hmono := definesBefore_mono hash (init s) k (k + 1) (Nat.le_succ k)
    have hmono1 := definesBefore_mono hash (init s) n1 k (by omega)
    have hser1 := (serialno_invariant hash s n1 st1 h1 (by omega)).1
    have hinv := serialno_invariant hash s k st hrun (by omega)
    rcases Nat.lt_succ_iff_lt_or_eq.mp hk with hlt1 | heq
    · have hd1 := definesBefore_define hash (init s) st1 n1 h1 (by simp [hs1])
      have hmono2 := definesBefore_mono hash (init s) (n1 + 1) k (by omega)
      rcases step_cases hash st st2 hstep with ⟨w2, r, i, hs, hi, g5, g6⟩ | ⟨hd, g1, g2⟩
      · have hcnt := definesBefore_define hash (init s) st k hrun (by simp [hs])
        rw [g6] at hv
        rcases mem_define hash st.wordlists w2 r i _ v ht b e hv he with
          ⟨_, h⟩ | ⟨ht0, h0, h3⟩
        · rw [h]
          simp only
          rw [toULong_toInt_small _ (by omega), hinv.1]
          omega
        · exact ih (by omega) hlt1 v ht0 b e hvw h0 h3
      · rw [g1] at hv
        exact ih (by omega) hlt1 v ht b e hvw hv he
    · subst heq
      rw [h1] at hrun
      injection hrun with hrun
      subst hrun
      rcases step_cases hash st1 st2 hstep with ⟨w2, r, i, hs, hi, g5, g6⟩ | ⟨hd, g1, g2⟩
      · rw [hs1] at hs
        injection hs with _ hs
        injection hs with hw _
        subst hw
        rw [g6] at hv
        simp only [hvw, if_false] at hv
        have := (hinv.2 v ht b e hv he).2
        omega
      · rw [hs1] at hd
        simp at hd

/-- After the define of the name `r2`, `i` at pass `n2` into `w`, the lookup of
the name in `w` gives an entry whose serial number is that of this define or a
later one; it is that of this define while the name is not defined in `w` again. -/
theorem shadow_same_wordlist (hash : List Nat → Nat) (s : List Nat) (n2 : Nat) (st2 : State)
    (w : Nat) (r2 : List Nat) (i : Nat) (h2 : run hash n2 (init s) = some st2)
    (hs2 : st2.s = 10 :: w :: r2) (hi2 : scan r2 = some i) :
    ∀ k st, run hash k (init s) = some st → definesBefore hash (init s) k < 2 ^ 31 →
      n2 < k →
      ∃ e, tableGet hash st.wordlists w r2 i = some e ∧ st2.serialno ≤ e.serialno
        ∧ ((∀ k2 stk rk, n2 < k2 → k2 < k → run hash k2 (init s) = some stk →
              stk.s = 10 :: w :: rk → scan rk = some i → rk.take i ≠ r2.take i) →
            e.serialno = st2.serialno) := by
  apply run_induct
  · intro _ h
    exact absurd h (Nat.not_lt_zero n2)
  · intro k st st3 hrun hstep ih hlt hk
    have hmono := definesBefore_mono hash (init s) k (k + 1) (Nat.le_succ k)
    have hmono2 := definesBefore_mono hash (init s) n2 k (by omega)
    have hser2 := (serialno_invariant hash s n2 st2 h2 (by omega)).1
    have hinv := serialno_invariant hash s k st hrun (by omega)
    rcases Nat.lt_succ_iff_lt_or_eq.mp hk with hlt1 | heq
    · obtain ⟨e, he, hle, hexact⟩ := ih (by omega) hlt1
      have hd2 := definesBefore_define hash (init s) st2 n2 h2 (by simp [hs2])
      have hmono3 := definesBefore_mono hash (init s) (n2 + 1) k (by omega)
      rcases step_cases hash st st3 hstep with ⟨w2, r, i2, hs, hi, g5, g6⟩ | ⟨hd, g1, g2⟩
      · have hcnt := definesBefore_define hash (init s) st k hrun (by simp [hs])
        rw [g6, tableGet_define]
        by_cases hsame : w = w2 ∧ i = i2 ∧ r2.take i = r.take i
        · rw [if_pos hsame]
          refine ⟨_, rfl, ?_, ?_⟩
          · simp only
            rw [toULong_toInt_small _ (by omega), hinv.1]
            omega
          · intro hno
            obtain ⟨hw, hii, hname⟩ := hsame
            subst hw
            subst hii
            exact absurd hname.symm (hno k st r hlt1 (Nat.lt_succ_self k) hrun hs hi)
        · rw [if_neg hsame]
          refine ⟨e, he, hle, ?_⟩
          intro hno
          exact hexact (fun k2 stk rk a1 a2 => hno k2 stk rk a1 (Nat.lt_succ_of_lt a2))
      · rw [g1]
        refine ⟨e, he, hle, ?_⟩
        intro hno
        exact hexact (fun k2 stk rk a1 a2 => hno k2 stk rk a1 (Nat.lt_succ_of_lt a2))
    · subst heq
      rw [h2] at hrun
      injection hrun with hrun
      subst hrun
      have hd2 := definesBefore_define hash (init s) st2 n2 h2 (by simp [hs2])
      rcases step_cases hash st2 st3 hstep with ⟨w2, r, i2, hs, hi, g5, g6⟩ | ⟨hd, g1, g2⟩
      · rw [hs2] at hs
        injection hs with _ hs
        injection hs with hw hr
        subst hw
        subst hr
        rw [hi2] at hi
        injection hi with hi
        subst hi
        rw [g6, tableGet_define, if_pos ⟨rfl, rfl, rfl⟩]
        refine ⟨_, rfl, ?_, ?_⟩
        · simp only
          rw [toULong_toInt_small _ (by omega)]
        · intro _
          simp only
          rw [toULong_toInt_small _ (by omega)]
      · rw [hs2] at hd
        simp at hd

theorem getD_of_mem_take (order : List Nat) (n w : Nat) (h : w ∈ order.take n) :
    ∃ j, j < n ∧ order.getD j 0 = w := by
  obtain ⟨j, hj, hw⟩ := List.mem_iff_getElem.mp h
  have hj2 : j < n ∧ j < order.length := by
    simpa [List.length_take] using hj
  refine ⟨j, hj2.1, ?_⟩
  rw [List.getD_eq_getElem _ _ hj2.2, ← hw, List.getElem_take]

/-! ## Reads stay inside a buffer that ends properly -/

/-- A scan started before a 0 byte ends at that byte at the latest. -/
theorem scan_before_zero (p post : List Nat) :
    ∃ i, scan (p ++ 0 :: post) = some i ∧ i ≤ p.length := by
  induction p with
  | nil => exact ⟨0, by simp [scan], Nat.le_refl _⟩
  | cons c p ih =>
    obtain ⟨i, hi, hle⟩ := ih
    by_cases hc : c > 32
    · exact ⟨i + 1, by simp [scan, hc, hi], by simpa using hle⟩
    · exact ⟨0, by simp [scan, hc], Nat.zero_le _⟩

/-- A pass made before the first 0 of the input, whose preceding byte is not
`'\n'`, does not read outside the buffer, and the next pass is again before
that 0 or at it. -/
theorem step_before_zero (hash : List Nat → Nat) (pre post : List Nat) (h0 : 0 ∉ pre)
    (hlast : pre.getLast? ≠ some 10) (st : State) (p : List Nat)
    (hs : st.s = p ++ 0 :: post) (hp : p <:+ pre) :
    step hash st ≠ .done .overrun
      ∧ ∀ st2, step hash st = .next st2 → ∃ p2, st2.s = p2 ++ 0 :: post ∧ p2 <:+ pre := by
  cases p with
  | nil =>
    simp only [List.nil_append] at hs
    simp [step, hs]
  | cons c p =>
    simp only [List.cons_append] at hs
    have hc0 : c ≠ 0 := fun h => h0 (h ▸ hp.mem (List.mem_cons_self c p))
    have hp1 : p <:+ pre := (List.suffix_cons c p).trans hp
    by_cases h10 : c = 10
    · subst h10
      cases p with
      | nil =>
        obtain ⟨t, ht⟩ := hp
        rw [← ht] at hlast
        simp at hlast
      | cons w p =>
        obtain ⟨i, hi, hle⟩ := scan_before_zero p post
        have hstep := step_define hash st w (p ++ 0 :: post) i hs hi
        rw [hstep]
        refine ⟨by simp, ?_⟩
        intro st2 h
        injection h with h
        rw [← h]
        refine ⟨p.drop i, by simp [List.drop_append_of_le_length hle], ?_⟩
        exact (List.drop_suffix i p).trans ((List.suffix_cons w p).trans hp1)
    · obtain ⟨i, hi, hle⟩ := scan_before_zero p post
      have hdrop : (p ++ 0 :: post).drop i = p.drop i ++ 0 :: post :=
        List.drop_append_of_le_length hle
      have hsuf : p.drop i <:+ pre := (List.drop_suffix i p).trans hp1
      by_cases h9 : c = 9
      · subst h9
        simp only [step, hs, set_order, hi]
        refine ⟨by simp, ?_⟩
        intro st2 h
        simp only [show ¬ (9 : Nat) = 0 by decide, show ¬ (9 : Nat) = 10 by decide, if_false,
          if_true, Step.next.injEq] at h
        rw [← h]
        exact ⟨p.drop i, hdrop, hsuf⟩
      · by_cases h32 : c = 32
        · subst h32
          simp only [step, hs, find, hi]
          refine ⟨by simp, ?_⟩
          intro st2 h
          simp only [show ¬ (32 : Nat) = 0 by decide, show ¬ (32 : Nat) = 10 by decide,
            show ¬ (32 : Nat) = 9 by decide, if_false, if_true, Step.next.injEq] at h
          rw [← h]
          exact ⟨p.drop i, hdrop, hsuf⟩
        · simp [step, hs, hc0, h10, h9, h32]

/-- On an input that has a 0 byte, the byte before the first 0 not being
`'\n'`, `process` does not read outside the buffer. -/
theorem process_no_overrun (hash : List Nat → Nat) (pre post : List Nat) (h0 : 0 ∉ pre)
    (hlast : pre.getLast? ≠ some 10) :
    process hash (pre ++ 0 :: post) ≠ some .overrun := by
  intro h
  obtain ⟨n, st, hrun, hdone⟩ := (process_eq_some hash _ _).mp h
  have hinv : ∃ p, st.s = p ++ 0 :: post ∧ p <:+ pre := by
    refine run_induct hash (init (pre ++ 0 :: post))
      (fun _ st => ∃ p, st.s = p ++ 0 :: post ∧ p <:+ pre) ⟨pre, rfl, List.suffix_refl pre⟩
      ?_ n st hrun
    intro k st1 st2 _ hstep ⟨p, hs, hp⟩
    exact (step_before_zero hash pre post h0 hlast st1 p hs hp).2 st2 hstep
  obtain ⟨p, hs, hp⟩ := hinv
  exact (step_before_zero hash pre post h0 hlast st p hs hp).1 hdone

/-! ## The mixing step -/

theorem toULong_ofNat (n : Nat) (h : n < 2 ^ 64) : toULong (n : Int) = n := by
  simp only [toULong]
  have : ((n : Int) % 2 ^ 64) = (n : Int) := Int.emod_eq_of_lt (by omega) (by omega)
  rw [this]
  simp

theorem toInt_small (n : Nat) (h : n < 2 ^ 31) : toInt n = (n : Int) := by
  have h32 : n % 2 ^ 32 = n := Nat.mod_eq_of_lt (by omega)
  simp only [toInt, h32]
  rw [if_pos h]

/-- On 64-bit values `x ^^^ (x >>> 41)` is its own inverse. -/
theorem xorshift_involutive (x : Nat) (hx : x < 2 ^ 64) :
    (x ^^^ (x >>> 41)) ^^^ ((x ^^^ (x >>> 41)) >>> 41) = x := by
  apply Nat.eq_of_testBit_eq
  intro i
  have hhigh : x.testBit (41 + (41 + i)) = false :=
    Nat.testBit_lt_two_pow (Nat.lt_of_lt_of_le hx (Nat.pow_le_pow_right (by decide) (by omega)))
  simp only [Nat.testBit_xor, Nat.testBit_shiftRight, hhigh]
  cases x.testBit i <;> cases x.testBit (41 + i) <;> rfl

theorem xorshift_lt (x : Nat) (hx : x < 2 ^ 64) : x ^^^ (x >>> 41) < 2 ^ 64 := by
  apply Nat.xor_lt_two_pow hx
  rw [Nat.shiftRight_eq_div_pow]
  exact Nat.lt_of_le_of_lt (Nat.div_le_self _ _) hx

/-- Multiplication by `k0` modulo `2^64` is undone by multiplication by `k0_inv`. -/
theorem mul_k0_inv (x : Nat) (hx : x < 2 ^ 64) : (x * k0 % 2 ^ 64) * k0_inv % 2 ^ 64 = x := by
  have hk : k0 * k0_inv % 2 ^ 64 = 1 := by decide
  rw [Nat.mod_mul_mod, Nat.mul_assoc, Nat.mul_mod, hk, Nat.mul_one, Nat.mod_mod]
  exact Nat.mod_eq_of_lt hx

theorem mul_k0_inv_left (x : Nat) (hx : x < 2 ^ 64) :
    (x * k0_inv % 2 ^ 64) * k0 % 2 ^ 64 = x := by
  have hk : k0_inv * k0 % 2 ^ 64 = 1 := by decide
  rw [Nat.mod_mul_mod, Nat.mul_assoc, Nat.mul_mod, hk, Nat.mul_one, Nat.mod_mod]
  exact Nat.mod_eq_of_lt hx

theorem mix_lt (h f : Nat) : mix h f < 2 ^ 64 :=
  xorshift_lt _ (Nat.mod_lt _ (by decide))

/-- The argument of the multiplication is recovered from the result of `mix`. -/
theorem mix_inv (h f : Nat) (hh : h < 2 ^ 64) (hf : f < 2 ^ 64) :
    ((mix h f ^^^ (mix h f >>> 41)) * k0_inv) % 2 ^ 64 = h ^^^ f := by
  have hlt : (h ^^^ f) * k0 % 2 ^ 64 < 2 ^ 64 := Nat.mod_lt _ (by decide)
  simp only [mix]
  rw [xorshift_involutive _ hlt]
  exact mul_k0_inv _ (Nat.xor_lt_two_pow hh hf)

/-! ## The read position -/

theorem create_suffix (hash : List Nat → Nat) (wl wl2 : Wordlists) (s s2 : List Nat)
    (sn : Nat) (h : create hash wl s sn = some (s2, wl2)) : s2 <:+ s := by
  unfold create at h
  split at h
  · simp at h
  · rename_i w r
    split at h
    · simp at h
    · rename_i i hi
      split at h
      · simp at h
      · simp only [Option.some.injEq, Prod.mk.injEq] at h
        rw [← h.1]
        exact (List.drop_suffix i r).trans (List.suffix_cons w r)

/-- A pass leaves the read position at a later byte of the same buffer. -/
theorem step_next_suffix (hash : List Nat → Nat) (st st2 : State)
    (h : step hash st = .next st2) : st2.s <:+ st.s := by
  unfold step at h
  split at h
  · simp at h
  · rename_i c r hs
    rw [hs]
    split_ifs at h
    · cases hc : create hash st.wordlists r st.serialno with
      | none => simp [hc] at h
      | some p =>
        obtain ⟨s2, wl2⟩ := p
        simp only [hc, Step.next.injEq] at h
        rw [← h]
        exact (create_suffix hash _ _ _ _ _ hc).trans (List.suffix_cons c r)
    · cases hc : scan r with
      | none => simp [set_order, hc] at h
      | some i =>
        simp only [set_order, hc, Step.next.injEq] at h
        rw [← h]
        exact (List.drop_suffix i r).trans (List.suffix_cons c r)
    · cases hc : scan r with
      | none => simp [find, hc] at h
      | some i =>
        simp only [find, hc, Step.next.injEq] at h
        rw [← h]
        exact (List.drop_suffix i r).trans (List.suffix_cons c r)

theorem run_suffix (hash : List Nat → Nat) (s : List Nat) :
    ∀ n st, run hash n (init s) = some st → st.s <:+ s := by
  apply run_induct
  · exact List.suffix_refl s
  · intro k st st2 _ hstep ih
    exact (step_next_suffix hash st st2 hstep).trans ih

/-- More passes than needed change nothing. -/
theorem process_loop_mono (hash : List Nat → Nat) (fuel k : Nat) (st : State) (o : Outcome)
    (h : process_loop hash fuel st = some o) : process_loop hash (fuel + k) st = some o := by
  induction fuel generalizing st with
  | zero => simp [process_loop] at h
  | succ fuel ih =>
    rw [Nat.succ_add, process_loop]
    rw [process_loop] at h
    cases hs : step hash st with
    | done o2 =>
      simp only [hs] at h ⊢
      exact h
    | next st2 =>
      simp only [hs] at h ⊢
      exact ih st2 h

/-- The pass for a set-order command that is made. -/
theorem step_set_order_inv (hash : List Nat → Nat) (st st2 : State) (r : List Nat)
    (hs : st.s = 9 :: r) (h : step hash st = .next st2) :
    st2.order = r ∧ scan r = some st2.order_len := by
  simp only [step, hs, set_order] at h
  cases hc : scan r with
  | none => simp [hc] at h
  | some i =>
    simp only [hc, show ¬ (9 : Nat) = 0 by decide, show ¬ (9 : Nat) = 10 by decide, if_false,
      if_true, Step.next.injEq] at h
    rw [← h]
    exact ⟨rfl, rfl⟩

/-- The search order is empty or it is what a set-order command of the run read. -/
theorem order_from_set_order (hash : List Nat → Nat) (s : List Nat) :
    ∀ n st, run hash n (init s) = some st →
      st.order_len = 0
        ∨ ∃ k stk r, k < n ∧ run hash k (init s) = some stk ∧ stk.s = 9 :: r
            ∧ st.order = r ∧ scan r = some st.order_len := by
  apply run_induct
  · exact Or.inl rfl
  · intro k st st2 hrun hstep ih
    by_cases h9 : ∃ r, st.s = 9 :: r
    · obtain ⟨r, hr⟩ := h9
      obtain ⟨h1, h2⟩ := step_set_order_inv hash st st2 r hr hstep
      exact Or.inr ⟨k, st, r, Nat.lt_succ_self k, hrun, hr, h1, h2⟩
    · have hfr := step_order_frame hash st st2 hstep (fun r hr => h9 ⟨r, hr⟩)
      rcases ih with h0 | ⟨j, stj, r, hj, hrj, hsj, ho, hl⟩
      · exact Or.inl (hfr.2.trans h0)
      · exact Or.inr ⟨j, stj, r, Nat.lt_succ_of_lt hj, hrj, hsj, hfr.1.trans ho,
          by rw [hfr.2]; exact hl⟩

/-! ## Repeated identifiers in the order -/

theorem find_list_none (hash : List Nat → Nat) (wl : Wordlists) (s : List Nat) (i : Nat)
    (l : List Nat) (h : ∀ w ∈ l, tableGet hash wl w s i = none) :
    find_list hash wl s i l = 0 := by
  induction l with
  | nil => rfl
  | cons w l ih =>
    rw [find_list, h w (List.mem_cons_self w l)]
    exact ih (fun v hv => h v (List.mem_cons_of_mem w hv))

theorem find_list_append_none (hash : List Nat → Nat) (wl : Wordlists) (s : List Nat)
    (i : Nat) (l m : List Nat) (h : ∀ w ∈ l, tableGet hash wl w s i = none) :
    find_list hash wl s i (l ++ m) = find_list hash wl s i m := by
  induction l with
  | nil => rfl
  | cons w l ih =>
    rw [List.cons_append, find_list, h w (List.mem_cons_self w l)]
    exact ih (fun v hv => h v (List.mem_cons_of_mem w hv))

theorem find_list_append_some (hash : List Nat → Nat) (wl : Wordlists) (s : List Nat)
    (i : Nat) (l m : List Nat) (h : ∃ w ∈ l, tableGet hash wl w s i ≠ none) :
    find_list hash wl s i (l ++ m) = find_list hash wl s i l := by
  induction l with
  | nil =>
    obtain ⟨w, hw, _⟩ := h
    simp at hw
  | cons w l ih =>
    rw [List.cons_append, find_list, find_list]
    cases hw : tableGet hash wl w s i with
    | some e => rfl
    | none =>
      simp only []
      apply ih
      obtain ⟨v, hv, hne⟩ := h
      rcases List.mem_cons.mp hv with rfl | hv
      · exact absurd hw hne
      · exact ⟨v, hv, hne⟩

/-- The loop of `find` gives the same over the identifiers without their
repetitions below the topmost occurrence. -/
theorem find_list_dedup (hash : List Nat → Nat) (wl : Wordlists) (s : List Nat) (i : Nat)
    (o : List Nat) :
    find_list hash wl s i o.dedup.reverse = find_list hash wl s i o.reverse := by
  induction o with
  | nil => rfl
  | cons a l ih =>
    by_cases hall : ∀ w ∈ l, tableGet hash wl w s i = none
    · have hallr : ∀ w ∈ l.reverse, tableGet hash wl w s i = none :=
        fun w hw => hall w (List.mem_reverse.mp hw)
      have halld : ∀ w ∈ l.dedup.reverse, tableGet hash wl w s i = none :=
        fun w hw => hall w (List.mem_dedup.mp (List.mem_reverse.mp hw))
      rw [List.reverse_cons, find_list_append_none hash wl s i _ _ hallr]
      by_cases ha : a ∈ l
      · rw [List.dedup_cons_of_mem ha, find_list_none hash wl s i _ halld, find_list,
          hall a ha]
        rfl
      · rw [List.dedup_cons_of_not_mem ha, List.reverse_cons,
          find_list_append_none hash wl s i _ _ halld]
    · have hsome : ∃ w ∈ l, tableGet hash wl w s i ≠ none := by
        by_contra hcon
        apply hall
        intro w hw
        by_contra hne
        exact hcon ⟨w, hw, hne⟩
      obtain ⟨w, hw, hne⟩ := hsome
      have hsr : ∃ w ∈ l.reverse, tableGet hash wl w s i ≠ none :=
        ⟨w, List.mem_reverse.mpr hw, hne⟩
      have hsd : ∃ w ∈ l.dedup.reverse, tableGet hash wl w s i ≠ none :=
        ⟨w, List.mem_reverse.mpr (List.mem_dedup.mpr hw), hne⟩
      rw [List.reverse_cons, find_list_append_some hash wl s i _ _ hsr, ← ih]
      by_cases ha : a ∈ l
      · rw [List.dedup_cons_of_mem ha]
      · rw [List.dedup_cons_of_not_mem ha, List.reverse_cons,
          find_list_append_some hash wl s i _ _ hsd]

theorem defines_succ_last (n : Nat) (rest : List Nat) :
    defines (n + 1) rest = defines n (10 :: 65 :: rest) := by
  induction n with
  | zero => rfl
  | succ n ih =>
    show 10 :: 65 :: defines (n + 1) rest = 10 :: 65 :: defines n (10 :: 65 :: rest)
    rw [ih]

/-! ## Runs that differ in the bucket hash -/

theorem find_loop_congr (hash1 hash2 : List Nat → Nat) (wl1 wl2 : Wordlists)
    (order1 order2 s1 s2 : List Nat) (i n : Nat)
    (horder : ∀ j, j < n → order1.getD j 0 = order2.getD j 0)
    (hget : ∀ w, (tableGet hash1 wl1 w s1 i).map (fun e => e.serialno)
      = (tableGet hash2 wl2 w s2 i).map (fun e => e.serialno)) :
    find_loop hash1 wl1 order1 s1 i n = find_loop hash2 wl2 order2 s2 i n := by
  induction n with
  | zero => rfl
  | succ n ih =>
    rw [find_loop_succ, find_loop_succ, ← horder n (Nat.lt_succ_self n)]
    have hw := hget (order1.getD n 0)
    have ih2 := ih (fun j hj => horder j (Nat.lt_succ_of_lt hj))
    cases h1 : tableGet hash1 wl1 (order1.getD n 0) s1 i with
    | none =>
      cases h2 : tableGet hash2 wl2 (order1.getD n 0) s2 i with
      | none => exact ih2
      | some e2 =>
        rw [h1, h2] at hw
        simp at hw
    | some e1 =>
      cases h2 : tableGet hash2 wl2 (order1.getD n 0) s2 i with
      | none =>
        rw [h1, h2] at hw
        simp at hw
      | some e2 =>
        rw [h1, h2] at hw
        simpa using hw

theorem sameLookups_define (hash1 hash2 : List Nat → Nat) (wl1 wl2 : Wordlists) (w : Nat)
    (r1 r2 : List Nat) (i : Nat) (sn : Int) (h : SameLookups hash1 hash2 wl1 wl2)
    (hr : r1.take i = r2.take i) :
    SameLookups hash1 hash2
      (fun v => if v = w then some (ht_set hash1 (tableOr wl1 w) r1 i sn) else wl1 v)
      (fun v => if v = w then some (ht_set hash2 (tableOr wl2 w) r2 i sn) else wl2 v) := by
  intro v key1 key2 l hk
  rw [tableGet_define, tableGet_define]
  by_cases hc : v = w ∧ l = i ∧ key1.take l = r1.take l
  · have hc2 : v = w ∧ l = i ∧ key2.take l = r2.take l := by
      obtain ⟨a, b, c⟩ := hc
      subst b
      exact ⟨a, rfl, by rw [← hk, c, hr]⟩
    rw [if_pos hc, if_pos hc2]
    rfl
  · have hc2 : ¬ (v = w ∧ l = i ∧ key2.take l = r2.take l) := by
      rintro ⟨a, b, c⟩
      subst b
      exact hc ⟨a, rfl, by rw [hk, c, hr]⟩
    rw [if_neg hc, if_neg hc2]
    exact h v key1 key2 l hk

/-- The pass for a lookup command whose name ends inside the buffer. -/
theorem step_lookup (hash : List Nat → Nat) (st : State) (r : List Nat) (i : Nat)
    (hs : st.s = 32 :: r) (hi : scan r = some i) :
    step hash st = .next
      { st with
        s := r.drop i
        hash :=
          if find_loop hash st.wordlists st.order r i st.order_len ≠ 0
          then mix st.hash (find_loop hash st.wordlists st.order r i st.order_len)
          else st.hash } := by
  simp [step, hs, find, hi]

theorem scan_up_to_zero (p : List Nat) :
    ∃ i, i ≤ p.length ∧ ∀ post, scan (p ++ 0 :: post) = some i := by
  induction p with
  | nil => exact ⟨0, Nat.le_refl _, fun post => by simp [scan]⟩
  | cons c p ih =>
    obtain ⟨i, hle, hi⟩ := ih
    by_cases hc : c > 32
    · exact ⟨i + 1, by simpa using hle, fun post => by simp [scan, hc, hi post]⟩
    · exact ⟨0, Nat.zero_le _, fun post => by simp [scan, hc]⟩

/-- A pass made at the same position before the first 0 of two buffers, no
`'\n'` command right before that 0: it reads nothing after the 0, so it ends
alike in both or goes on alike. -/
theorem sameUpToZero_step (hash : List Nat → Nat) (post1 post2 p : List Nat)
    (st1 st2 : State) (h : SameUpToZero hash post1 post2 p st1 st2) (hp : p ≠ [10]) :
    (∃ o, o ≠ .overrun ∧ step hash st1 = .done o ∧ step hash st2 = .done o)
      ∨ ∃ a b p2, step hash st1 = .next a ∧ step hash st2 = .next b
          ∧ SameUpToZero hash post1 post2 p2 a b := by
  obtain ⟨hs1, hs2, h0, hh, hser, hlen, hord, hlook⟩ := h
  cases p with
  | nil =>
    simp only [List.nil_append] at hs1 hs2
    exact Or.inl ⟨.returned st1.hash, by simp, by simp [step, hs1], by simp [step, hs2, hh]⟩
  | cons c p =>
    simp only [List.cons_append] at hs1 hs2
    have hc0 : c ≠ 0 := fun hc => h0 (hc ▸ List.mem_cons_self c p)
    have h0p : 0 ∉ p := fun hm => h0 (List.mem_cons_of_mem c hm)
    have hnot : ∀ k, 0 ∉ p.drop k := fun k hm => h0p ((List.drop_suffix k p).mem hm)
    by_cases h10 : c = 10
    · subst h10
      cases p with
      | nil => exact absurd rfl hp
      | cons w p =>
        simp only [List.cons_append] at hs1 hs2
        obtain ⟨i, hle, hi⟩ := scan_up_to_zero p
        have h0q : 0 ∉ p.drop i := fun hm =>
          h0p (List.mem_cons_of_mem w ((List.drop_suffix i p).mem hm))
        right
        refine ⟨_, _, p.drop i, step_define hash st1 w _ i hs1 (hi post1),
          step_define hash st2 w _ i hs2 (hi post2),
          List.drop_append_of_le_length hle, List.drop_append_of_le_length hle, h0q, hh,
          by simp only [hser], hlen, hord, ?_⟩
        simp only [hser]
        apply sameLookups_define hash hash _ _ w _ _ i _ hlook
        rw [List.take_append_of_le_length hle, List.take_append_of_le_length hle]
    · obtain ⟨i, hle, hi⟩ := scan_up_to_zero p
      by_cases h9 : c = 9
      · subst h9
        right
        refine ⟨{ st1 with s := (p ++ 0 :: post1).drop i, order := p ++ 0 :: post1,
                           order_len := i },
          { st2 with s := (p ++ 0 :: post2).drop i, order := p ++ 0 :: post2,
                     order_len := i },
          p.drop i, by simp [step, hs1, set_order, hi post1],
          by simp [step, hs2, set_order, hi post2],
          List.drop_append_of_le_length hle, List.drop_append_of_le_length hle, hnot i, hh,
          hser, rfl, ?_, hlook⟩
        intro j hj
        have hj2 : j < p.length := Nat.lt_of_lt_of_le hj hle
        show (p ++ 0 :: post1).getD j 0 = (p ++ 0 :: post2).getD j 0
        rw [List.getD_append _ _ _ _ hj2, List.getD_append _ _ _ _ hj2]
      · by_cases h32 : c = 32
        · subst h32
          have hfound : find_loop hash st1.wordlists st1.order (p ++ 0 :: post1) i
                st1.order_len
              = find_loop hash st2.wordlists st2.order (p ++ 0 :: post2) i st2.order_len := by
            rw [← hlen]
            apply find_loop_congr hash hash _ _ _ _ _ _ i _ hord
            intro w
            apply hlook
            rw [List.take_append_of_le_length hle, List.take_append_of_le_length hle]
          right
          refine ⟨_, _, p.drop i, step_lookup hash st1 _ i hs1 (hi post1),
            step_lookup hash st2 _ i hs2 (hi post2),
            List.drop_append_of_le_length hle, List.drop_append_of_le_length hle, hnot i, ?_,
            hser, hlen, hord, hlook⟩
          simp only [hfound, hh]
        · exact Or.inl ⟨.invalid, by simp, by simp [step, hs1, hc0, h10, h9, h32],
            by simp [step, hs2, hc0, h10, h9, h32]⟩

/-- The loop of `process` from two such states, when the run in the second
buffer never has a `'\n'` command right before the first 0: the same outcome,
which is not a read outside the buffer. -/
theorem sameUpToZero_process_loop (hash : List Nat → Nat) (post1 post2 : List Nat)
    (fuel : Nat) :
    ∀ (st1 st2 : State) (p : List Nat), SameUpToZero hash post1 post2 p st1 st2 →
      (∀ n st, run hash n st2 = some st → st.s ≠ 10 :: 0 :: post2) →
      process_loop hash fuel st1 = process_loop hash fuel st2
        ∧ process_loop hash fuel st2 ≠ some .overrun := by
  induction fuel with
  | zero =>
    intro st1 st2 p _ _
    exact ⟨rfl, by simp [process_loop]⟩
  | succ fuel ih =>
    intro st1 st2 p h hno
    have hp : p ≠ [10] := by
      intro hp
      have := hno 0 st2 rfl
      rw [h.2.1, hp] at this
      exact this rfl
    rw [process_loop, process_loop]
    rcases sameUpToZero_step hash post1 post2 p st1 st2 h hp with
      ⟨o, ho, h1, h2⟩ | ⟨a, b, p2, h1, h2, hab⟩
    · rw [h1, h2]
      exact ⟨rfl, fun hc => ho (by injection hc)⟩
    · rw [h1, h2]
      apply ih a b p2 hab
      intro n st hrun
      apply hno (n + 1) st
      rw [run]
      simp only [h2]
      exact hrun

theorem init_sameUpToZero (hash : List Nat → Nat) (pre post1 post2 : List Nat) (h0 : 0 ∉ pre) :
    SameUpToZero hash post1 post2 pre (init (pre ++ 0 :: post1)) (init (pre ++ 0 :: post2)) :=
  ⟨rfl, rfl, h0, rfl, rfl, rfl, fun _ _ => rfl, fun w key1 key2 l _ => by simp [tableGet, init]⟩

/-! ## The hash table against the linked list -/

theorem sized_create_4000 (hash : List Nat → Nat) (wl : Wordlists) (s : List Nat) (sn : Nat) :
    Sized.create 4000 hash wl s sn = create hash wl s sn := rfl

/-- C1. Resolver priority: `find` on a name of `i` bytes at `s` stores in
`*foundp` the serial number of the entry that the lookup of the name gives in
the table of `order[j]`, for the largest `j < order_len` whose identifier has a
table in which the lookup finds the name, and `0` when there is no such `j`.
In particular, when the lookups in wordlists `a` and `b` give entries `ea` and
`eb`, the order `a b` resolves to the serial number of `eb` and the order `b a`
to that of `ea`.  In every registry that a run of `process` builds, the lookup
in a wordlist finds the name exactly when the wordlist has a table and some
chain of it has an entry for the name.  The bucket hash is arbitrary. -/
theorem find_priority (hash : List Nat → Nat) (wordlists : Wordlists) (order : List Nat)
    (order_len : Nat) (s : List Nat) (i : Nat) (hscan : scan s = some i) :
    (∃ found, find hash wordlists order order_len s = some (s.drop i, found)
        ∧ (∀ j e, j < order_len →
            tableGet hash wordlists (order.getD j 0) s i = some e →
            (∀ j2, j < j2 → j2 < order_len →
              tableGet hash wordlists (order.getD j2 0) s i = none) →
            found = e.serialno)
        ∧ ((∀ j, j < order_len → tableGet hash wordlists (order.getD j 0) s i = none) →
            found = 0))
      ∧ (∀ a b ea eb rest, tableGet hash wordlists a s i = some ea →
          tableGet hash wordlists b s i = some eb →
          find hash wordlists (a :: b :: rest) 2 s = some (s.drop i, eb.serialno)
            ∧ find hash wordlists (b :: a :: rest) 2 s = some (s.drop i, ea.serialno))
      ∧ ∀ input n st w key key_len, run hash n (init input) = some st →
          (tableGet hash st.wordlists w key key_len).isSome
            = wordlistContains st.wordlists w key key_len := by
  refine ⟨⟨find_loop hash wordlists order s i order_len, ?_,
      (find_loop_top hash wordlists order s i order_len).1,
      (find_loop_top hash wordlists order s i order_len).2⟩, ?_, ?_⟩
  · simp [find, hscan]
  · intro a b ea eb rest ha hb
    simp [find, hscan, find_loop_succ, ha, hb]
  · intro input n st w key key_len hrun
    exact tableGet_isSome_iff hash input n st hrun w key key_len

/-- Witness for C1: wordlists `A` and `B` both define "x", with serial numbers 1 and 2. -/
theorem find_priority_witness :
    scan [120, 0] = some 1
      ∧ find (fun _ => 3)
          (fun w => if w = 65 then
              some (ht_set (fun _ => 3) { size := 4000, table := fun _ => [] } [120, 10] 1 1)
            else if w = 66 then
              some (ht_set (fun _ => 3) { size := 4000, table := fun _ => [] } [120, 9] 1 2)
            else none)
          [65, 66, 32] 2 [120, 0] = some ([0], 2) := by
  refine ⟨by decide, ?_⟩
  exact ((find_priority (fun _ => 3)
          (fun w => if w = 65 then
              some (ht_set (fun _ => 3) { size := 4000, table := fun _ => [] } [120, 10] 1 1)
            else if w = 66 then
              some (ht_set (fun _ => 3) { size := 4000, table := fun _ => [] } [120, 9] 1 2)
            else none)
          [] 0 [120, 0] 1 (by decide)).2.1 65 66
        { name := some [120, 10], name_len := 1, serialno := 1 }
        { name := some [120, 9], name_len := 1, serialno := 2 } [32] (by decide)
        (by decide)).1

/-- C2. Symbol-table lookup: on a table built from `ht_create size` by any
sequence of `ht_set` calls, `ht_get` returns the entry of the most recent call
whose key has the length and the bytes of the name; it returns `NULL` exactly
when no call had such a key; and a further insert of any other name leaves the
result as it was.  The bucket hash is arbitrary. -/
theorem ht_get_most_recent (hash : List Nat → Nat) (size : Int) (ht0 : hashtable_t)
    (hcreate : ht_create size = some ht0) (calls : List SetCall)
    (key : List Nat) (key_len : Nat) :
    ht_get hash (ht_sets hash ht0 calls) key key_len
        = (calls.reverse.find? (sameKey key key_len)).map entryOf
      ∧ (ht_get hash (ht_sets hash ht0 calls) key key_len = none
          ↔ ∀ c ∈ calls, sameKey key key_len c = false)
      ∧ ∀ c : SetCall, sameKey key key_len c = false →
          ht_get hash (ht_set hash (ht_sets hash ht0 calls) c.key c.key_len c.serialno)
              key key_len
            = ht_get hash (ht_sets hash ht0 calls) key key_len := by
  have hmain : ht_get hash (ht_sets hash ht0 calls) key key_len
      = (calls.reverse.find? (sameKey key key_len)).map entryOf := by
    rw [ht_get_ht_sets, ht_get_ht_create hash size ht0 hcreate]
    cases List.find? (sameKey key key_len) calls.reverse <;> rfl
  refine ⟨hmain, ?_, ?_⟩
  · rw [hmain]
    simp
  · intro c hc
    rw [ht_get_ht_set]
    simp only [sameKey, decide_eq_false_iff_not] at hc
    rw [if_neg hc]

/-- Witness for C2: three inserts into a table of 4000 buckets, two of them of
the name "ab". -/
theorem ht_get_most_recent_witness :
    ht_create 4000 = some { size := 4000, table := fun _ => [] }
      ∧ ht_get (fun _ => 7)
          (ht_sets (fun _ => 7) { size := 4000, table := fun _ => [] }
            [⟨[97, 98, 0], 2, 23⟩, ⟨[97, 98, 32, 1], 2, 24⟩, ⟨[99, 0], 1, 25⟩])
          [97, 98, 10] 2
        = some { name := some [97, 98, 32, 1], name_len := 2, serialno := 24 } :=
  ⟨rfl, by
    rw [(ht_get_most_recent (fun _ => 7) 4000 { size := 4000, table := fun _ => [] } rfl
      [⟨[97, 98, 0], 2, 23⟩, ⟨[97, 98, 32, 1], 2, 24⟩, ⟨[99, 0], 1, 25⟩]
      [97, 98, 10] 2).1]
    decide⟩

/-- C5. Fingerprint mixing: `process` starts with the fingerprint 0; a pass
for a lookup command replaces the fingerprint `h` by `h2 ^^^ (h2 >>> 41)` with
`h2 = ((h ^^^ found) * 0xB64D532AAAAAAAD5) % 2^64` when `find` gives a non-zero
`found` and leaves it as it is when `found` is 0; a pass for any other command
leaves it as it is. -/
theorem fingerprint_mixing (hash : List Nat → Nat) :
    (∀ s, (init s).hash = 0)
      ∧ ∀ st st2, step hash st = .next st2 →
          (∀ r, st.s = 32 :: r →
            ∃ s2 found, find hash st.wordlists st.order st.order_len r = some (s2, found)
              ∧ st2.hash =
                  if found ≠ 0 then
                    (((st.hash ^^^ found) * 0xB64D532AAAAAAAD5) % 2 ^ 64)
                      ^^^ ((((st.hash ^^^ found) * 0xB64D532AAAAAAAD5) % 2 ^ 64) >>> 41)
                  else st.hash)
          ∧ (∀ c r, st.s = c :: r → c ≠ 32 → st2.hash = st.hash) := by
  refine ⟨fun s => rfl, ?_⟩
  intro st st2 h
  refine ⟨?_, ?_⟩
  · intro r hr
    simp only [step, hr] at h
    cases hf : find hash st.wordlists st.order st.order_len r with
    | none => simp [hf] at h
    | some p =>
      obtain ⟨s2, found⟩ := p
      simp only [hf] at h
      norm_num at h
      refine ⟨s2, found, rfl, ?_⟩
      rw [← h]
      simp [mix, k0]
  · intro c r hr hc
    simp only [step, hr] at h
    split_ifs at h
    · cases hf : create hash st.wordlists r st.serialno with
      | none => simp [hf] at h
      | some p =>
        simp only [hf, Step.next.injEq] at h
        rw [← h]
    · cases hf : set_order r with
      | none => simp [hf] at h
      | some p =>
        simp only [hf, Step.next.injEq] at h
        rw [← h]

/-- Witness for C5: a lookup of "x" that finds serial number 1 with the
fingerprint at 5. -/
theorem fingerprint_mixing_witness :
    step (fun _ => 0) (stateAx [32, 120, 0] 5) = .next (stateAx [0] (mix 5 1))
      ∧ (stateAx [0] (mix 5 1)).hash
          = (((5 ^^^ 1) * 0xB64D532AAAAAAAD5) % 2 ^ 64)
              ^^^ ((((5 ^^^ 1) * 0xB64D532AAAAAAAD5) % 2 ^ 64) >>> 41) := by
  have hstep : step (fun _ => 0) (stateAx [32, 120, 0] 5) = .next (stateAx [0] (mix 5 1)) := rfl
  refine ⟨hstep, ?_⟩
  obtain ⟨s2, found, hf, hh⟩ :=
    ((fingerprint_mixing (fun _ => 0)).2 _ _ hstep).1 [120, 0] rfl
  have hfound : found = 1 := by
    have : find (fun _ => 0) (stateAx [32, 120, 0] 5).wordlists (stateAx [32, 120, 0] 5).order
        (stateAx [32, 120, 0] 5).order_len [120, 0] = some ([0], 1) := rfl
    rw [this] at hf
    simp only [Option.some.injEq, Prod.mk.injEq] at hf
    exact hf.2.symm
  rw [hh, hfound]
  rfl

/-- C6. The scenario `"\nAfoo\tA bar\tA foo"`: the first pass defines "foo" in
wordlist `A` with serial number 1; the lookup of "bar" finds nothing (`found`
is 0) and the fingerprint is still 0 after it; the lookup of "foo" finds serial
number 1; and `process` returns `K ^^^ (K >>> 41) = 0xB64D532AAAF18C7C` for
`K = 0xB64D532AAAAAAAD5`, whatever the bucket hash. -/
theorem scenario_fingerprint (hash : List Nat → Nat) :
    process hash scenario = some (.returned 0xB64D532AAAF18C7C)
      ∧ 0xB64D532AAAF18C7C = 0xB64D532AAAAAAAD5 ^^^ (0xB64D532AAAAAAAD5 >>> 41)
      ∧ (run hash 1 (init scenario)).map
            (fun st => (st.serialno,
              (tableGet hash st.wordlists 65 [102, 111, 111] 3).map (fun e => e.serialno)))
          = some (2, some 1)
      ∧ (run hash 2 (init scenario)).bind
            (fun st => find hash st.wordlists st.order st.order_len (st.s.drop 1))
          = some ([9, 65, 32, 102, 111, 111, 0], 0)
      ∧ (run hash 3 (init scenario)).map (fun st => st.hash) = some 0
      ∧ (run hash 4 (init scenario)).bind
            (fun st => find hash st.wordlists st.order st.order_len (st.s.drop 1))
          = some ([0], 1) := by
  refine ⟨?_, by decide, ?_, ?_, ?_, ?_⟩
  · simp [process, scenario, process_loop, step, init, create, scan, ht_create, set_order,
      find, find_loop_succ, find_loop, tableGet, ht_get_ht_set, ht_get_empty, toInt, toULong,
      mix, k0]
  · simp [scenario, run, step, init, create, scan, ht_create, tableGet, ht_get_ht_set,
      toInt, toULong]
  · simp [scenario, run, step, init, create, scan, ht_create, set_order,
      find, find_loop_succ, find_loop, tableGet, ht_get_ht_set, ht_get_empty, toInt, toULong]
  · simp [scenario, run, step, init, create, scan, ht_create, set_order,
      find, find_loop_succ, find_loop, tableGet, ht_get_ht_set, ht_get_empty, toInt, toULong]
  · simp [scenario, run, step, init, create, scan, ht_create, set_order,
      find, find_loop_succ, find_loop, tableGet, ht_get_ht_set, ht_get_empty, toInt, toULong]

/-- C9. Absent-table skip: when `wordlists[w]` is `NULL`, `find` under an
order `o` that has `w` at any positions gives what it gives under `o` with every
`w` removed; and `find` gives a result (no failure) for every name that ends
inside the buffer. -/
theorem find_skips_absent (hash : List Nat → Nat) (wordlists : Wordlists)
    (o rest rest2 s : List Nat) (w : Nat) (hw : wordlists w = none) :
    find hash wordlists (o ++ rest) o.length s
        = find hash wordlists (o.filter (fun v => !decide (v = w)) ++ rest2)
            (o.filter (fun v => !decide (v = w))).length s
      ∧ ∀ i, scan s = some i →
          ∃ found, find hash wordlists (o ++ rest) o.length s = some (s.drop i, found) := by
  refine ⟨?_, ?_⟩
  · unfold find
    cases scan s with
    | none => rfl
    | some i =>
      simp only []
      rw [find_loop_eq_find_list, find_loop_eq_find_list, ← List.filter_reverse,
        find_list_filter hash wordlists s i w hw]
  · intro i hi
    exact ⟨find_loop hash wordlists (o ++ rest) s i o.length, by simp [find, hi]⟩

/-- Witness for C9: wordlist `B` has no table, the order is `B A B`. -/
theorem find_skips_absent_witness :
    (stateAx [] 0).wordlists 66 = none
      ∧ find (fun _ => 0) (stateAx [] 0).wordlists [66, 65, 66, 32] 3 [120, 0]
          = find (fun _ => 0) (stateAx [] 0).wordlists [65, 0] 1 [120, 0]
      ∧ find (fun _ => 0) (stateAx [] 0).wordlists [65, 0] 1 [120, 0] = some ([0], 1) :=
  ⟨rfl,
    (find_skips_absent (fun _ => 0) (stateAx [] 0).wordlists [66, 65, 66] [32] [0] [120, 0]
      66 rfl).1,
    rfl⟩

/-- C8. Malformed command byte: `process` ends with the "invalid input" exit
exactly when the run reaches a command position whose byte is none of 0,
`'\n'`, `'\t'`, `' '`; in that case it returns no fingerprint; it returns `h`
exactly when the run reaches a command position holding 0 with the fingerprint
at `h`, no earlier command position holding 0; and a run that neither exits
nor reads outside the buffer returns that fingerprint.  No read is outside the
buffer when the input has a 0 byte and the byte before the first 0 is not
`'\n'`, and every run has exactly one of the three outcomes. -/
theorem process_invalid_iff (hash : List Nat → Nat) (s : List Nat) :
    (process hash s = some .invalid
        ↔ ∃ n st c r, run hash n (init s) = some st ∧ st.s = c :: r
            ∧ c ≠ 0 ∧ c ≠ 10 ∧ c ≠ 9 ∧ c ≠ 32)
      ∧ (process hash s = some .invalid → ∀ h, process hash s ≠ some (.returned h))
      ∧ (∀ h, process hash s = some (.returned h)
          ↔ ∃ n st r, run hash n (init s) = some st ∧ st.s = 0 :: r ∧ st.hash = h
              ∧ ∀ k stk, k < n → run hash k (init s) = some stk → ∀ r2, stk.s ≠ 0 :: r2)
      ∧ (process hash s ≠ some .invalid → process hash s ≠ some .overrun →
          ∃ n st r, run hash n (init s) = some st ∧ st.s = 0 :: r
            ∧ process hash s = some (.returned st.hash))
      ∧ (∀ pre post, s = pre ++ 0 :: post → 0 ∉ pre → pre.getLast? ≠ some 10 →
          process hash s ≠ some .overrun)
      ∧ ∃ o, process hash s = some o := by
  have hret : ∀ h, process hash s = some (.returned h)
      ↔ ∃ n st r, run hash n (init s) = some st ∧ st.s = 0 :: r ∧ st.hash = h
          ∧ ∀ k stk, k < n → run hash k (init s) = some stk →
              ∀ r2, stk.s ≠ 0 :: r2 := by
    intro h
    rw [process_eq_some]
    constructor
    · rintro ⟨n, st, hrun, hdone⟩
      obtain ⟨r, hs, hh⟩ := (step_returned_iff hash st h).mp hdone
      refine ⟨n, st, r, hrun, hs, hh, ?_⟩
      intro k stk hk hrk r2 hs2
      obtain ⟨st2, hst2⟩ := run_lt_next hash n k (init s) st stk hrun hk hrk
      have : step hash stk = .done (.returned stk.hash) :=
        (step_returned_iff hash stk stk.hash).mpr ⟨r2, hs2, rfl⟩
      rw [this] at hst2
      cases hst2
    · rintro ⟨n, st, r, hrun, hs, hh, _⟩
      exact ⟨n, st, hrun, (step_returned_iff hash st h).mpr ⟨r, hs, hh⟩⟩
  refine ⟨?_, ?_, hret, ?_, ?_, process_total hash s⟩
  rotate_right
  · intro pre post hs h0 hlast
    rw [hs]
    exact process_no_overrun hash pre post h0 hlast
  · rw [process_eq_some]
    constructor
    · rintro ⟨n, st, hrun, hdone⟩
      obtain ⟨c, r, h⟩ := (step_invalid_iff hash st).mp hdone
      exact ⟨n, st, c, r, hrun, h⟩
    · rintro ⟨n, st, c, r, hrun, h⟩
      exact ⟨n, st, hrun, (step_invalid_iff hash st).mpr ⟨c, r, h⟩⟩
  · intro hi h hr
    rw [hi] at hr
    cases hr
  · intro hni hno
    obtain ⟨o, ho⟩ := process_total hash s
    cases o with
    | invalid => exact absurd ho hni
    | overrun => exact absurd ho hno
    | returned h =>
      obtain ⟨n, st, r, hrun, hs, hh, _⟩ := (hret h).mp ho
      exact ⟨n, st, r, hrun, hs, by rw [ho, hh]⟩

/-- Witness for C8: the scenario input neither exits nor reads outside the
buffer and returns its fingerprint; a stray byte `'!'` at a command position
gives the exit. -/
theorem process_invalid_iff_witness :
    process (fun _ => 0) scenario ≠ some .invalid
      ∧ process (fun _ => 0) scenario ≠ some .overrun
      ∧ (∃ n st r, run (fun _ => 0) n (init scenario) = some st ∧ st.s = 0 :: r
          ∧ process (fun _ => 0) scenario = some (.returned st.hash))
      ∧ process (fun _ => 0) [32, 120, 33, 0] = some (.returned 0)
      ∧ process (fun _ => 0) [32, 120, 32, 0, 33] = some (.returned 0)
      ∧ process (fun _ => 0) [32, 120, 9, 65, 33, 32, 0] = some (.returned 0)
      ∧ process (fun _ => 0) [33, 0] = some .invalid
      ∧ process (fun _ => 0) [32, 120, 1, 0] = some .invalid :=
  ⟨by decide, by decide,
    (process_invalid_iff (fun _ => 0) scenario).2.2.2.1 (by decide) (by decide),
    by decide, by decide, by decide, by decide, by decide⟩

/-- C7. Set-order replaces wholesale and only affects later lookups: a
set-order command whose identifier bytes are `q` (the bytes above `' '` up to
the first byte `c <= ' '`) makes the search order exactly `q`, whatever the
state was before, and changes nothing else; the order is still `q` after any
number of further passes among which there is no set-order command, and a
lookup command met then is resolved as `find` resolves it under the order `q`. -/
theorem set_order_replaces (hash : List Nat → Nat) (st : State) (q : List Nat) (c : Nat)
    (tail : List Nat) (hs : st.s = 9 :: (q ++ c :: tail)) (hq : ∀ b ∈ q, 32 < b)
    (hc : c ≤ 32) :
    ∃ st1, step hash st = .next st1
      ∧ st1.order.take st1.order_len = q
      ∧ st1.s = c :: tail ∧ st1.hash = st.hash ∧ st1.serialno = st.serialno
      ∧ st1.wordlists = st.wordlists
      ∧ ∀ m st2, run hash m st1 = some st2 →
          (∀ k stk, k < m → run hash k st1 = some stk → ∀ r, stk.s ≠ 9 :: r) →
          st2.order.take st2.order_len = q
            ∧ ∀ r, st2.s = 32 :: r →
                find hash st2.wordlists st2.order st2.order_len r
                  = find hash st2.wordlists q q.length r := by
  have hscan := scan_append q c tail hq hc
  refine ⟨{ st with s := c :: tail, order := q ++ c :: tail, order_len := q.length }, ?_, ?_,
    rfl, rfl, rfl, rfl, ?_⟩
  · simp [step, hs, set_order, hscan]
  · simp
  · intro m st2 hrun h9
    obtain ⟨ho, hl⟩ := run_order_frame hash m _ st2 hrun h9
    simp only at ho hl
    rw [ho, hl]
    refine ⟨by simp, ?_⟩
    intro r _
    unfold find
    cases scan r with
    | none => rfl
    | some i =>
      simp only []
      rw [find_loop_eq_find_list]
      have := find_loop_eq_find_list hash st2.wordlists r i q []
      rw [List.append_nil] at this
      rw [this]

/-- Witness for C7: the order `A` is replaced by `B A`, and the lookup of "x"
that follows is resolved under `B A`. -/
theorem set_order_replaces_witness :
    (stateAx [9, 66, 65, 32, 120, 0] 0).s = 9 :: ([66, 65] ++ 32 :: [120, 0])
      ∧ (∀ b ∈ [66, 65], 32 < b) ∧ 32 ≤ 32
      ∧ ∃ st1, step (fun _ => 0) (stateAx [9, 66, 65, 32, 120, 0] 0) = .next st1
          ∧ st1.order.take st1.order_len = [66, 65] :=
  ⟨rfl, by decide, by decide, by
    obtain ⟨st1, h1, h2, _⟩ := set_order_replaces (fun _ => 0)
      (stateAx [9, 66, 65, 32, 120, 0] 0) [66, 65] 32 [120, 0] rfl (by decide) (by decide)
    exact ⟨st1, h1, h2⟩⟩

/-- C10. Unknown-name lookup: in every state that a run of `process` reaches, a
lookup command for a name for which no table of an identifier of the current
search order has an entry gives `found = 0` and the pass changes nothing but
the read position: the fingerprint and all the rest of the state stay as they
are, and the run goes on. -/
theorem lookup_unknown_name (hash : List Nat → Nat) (s : List Nat) (n : Nat) (st : State)
    (hreach : run hash n (init s) = some st) (r : List Nat) (i : Nat)
    (hs : st.s = 32 :: r) (hscan : scan r = some i)
    (habsent : ∀ j ht, j < st.order_len → st.wordlists (st.order.getD j 0) = some ht →
      tableContains ht r i = false) :
    find hash st.wordlists st.order st.order_len r = some (r.drop i, 0)
      ∧ step hash st = .next { st with s := r.drop i } := by
  have hok : WordlistsOk st.wordlists :=
    wordlistsOk_run hash n (init s) st hreach (wordlistsOk_init s)
  have hnone : ∀ j, j < st.order_len →
      tableGet hash st.wordlists (st.order.getD j 0) r i = none := by
    intro j hj
    unfold tableGet
    cases hw : st.wordlists (st.order.getD j 0) with
    | none => rfl
    | some ht =>
      exact ht_get_none_of_not_contains hash ht r i (hok _ ht hw) (habsent j ht hj hw)
  have hfound := (find_loop_top hash st.wordlists st.order r i st.order_len).2 hnone
  have hfind : find hash st.wordlists st.order st.order_len r = some (r.drop i, 0) := by
    simp [find, hscan, hfound]
  refine ⟨hfind, ?_⟩
  simp [step, hs, hfind]

/-- Witness for C10: after `"\nAfoo\tA"` the lookup of "bar" under the order `A`. -/
theorem lookup_unknown_name_witness :
    run (fun _ => 0) 2 (init inputBar) = some stateBar
      ∧ stateBar.s = 32 :: [98, 97, 114, 0]
      ∧ scan [98, 97, 114, 0] = some 3
      ∧ stateBar.order_len = 1
      ∧ (stateBar.wordlists (stateBar.order.getD 0 0)).map
          (fun ht => tableContains ht [98, 97, 114, 0] 3) = some false
      ∧ find (fun _ => 0) stateBar.wordlists stateBar.order stateBar.order_len [98, 97, 114, 0]
          = some ([0], 0) := by
  have hc : (stateBar.wordlists (stateBar.order.getD 0 0)).map
      (fun ht => tableContains ht [98, 97, 114, 0] 3) = some false := by
    have hw : stateBar.wordlists (stateBar.order.getD 0 0)
        = some (ht_set (fun _ => 0) { size := 4000, table := fun _ => [] }
            [102, 111, 111, 9, 65, 32, 98, 97, 114, 0] 3 1) := rfl
    rw [hw]
    simp only [Option.map_some', Option.some.injEq, tableContains, ht_set, List.any_eq_false]
    intro b _
    split_ifs <;> simp [entryHasName]
  refine ⟨rfl, rfl, rfl, rfl, hc, ?_⟩
  refine (lookup_unknown_name (fun _ => 0) inputBar 2 stateBar rfl [98, 97, 114, 0] 3 rfl rfl
    ?_).1
  intro j ht hj hw
  have hj0 : j = 0 := by
    have : stateBar.order_len = 1 := rfl
    omega
  subst hj0
  rw [hw] at hc
  simpa using hc

/-- C4, at the input of `2^31` define commands: the serial counter of `process`
is then `2^31 + 1`, but the entry that the `2^31`-th define stored has the
serial number `0xFFFFFFFF80000000` (the counter passed through the `int`
parameter of `ht_set`), not `2^31`; the lookup that follows folds that value,
and `process` returns a fingerprint other than the one of serial number `2^31`. -/
theorem serialno_through_int (hash : List Nat → Nat) :
    (∃ st, run hash (2 ^ 31) (init overflowInput) = some st
        ∧ st.serialno = 2 ^ 31 + 1
        ∧ (tableGet hash st.wordlists 65 [] 0).map (fun e => e.serialno)
            = some 0xFFFFFFFF80000000)
      ∧ process hash overflowInput = some (.returned (mix 0 0xFFFFFFFF80000000))
      ∧ mix 0 0xFFFFFFFF80000000 ≠ mix 0 (2 ^ 31) := by
  have hpow : (2 : Nat) ^ 31 = 2147483647 + 1 := by norm_num
  have hconv : toULong (toInt (1 + 2147483647)) = 0xFFFFFFFF80000000 := by decide
  obtain ⟨st, h1, h2, h3, h4, h5, h6, h7⟩ :=
    run_defines hash [9, 65, 32, 0] (by decide) 2147483647 (init overflowInput)
      (by rw [overflowInput, hpow]; rfl) (by simp [init])
  have h6b : st.serialno = 2 ^ 31 + 1 := by
    rw [h6]
    simp [init]
  have h7b : ∀ key, (tableGet hash st.wordlists 65 key 0).map (fun e => e.serialno)
      = some 0xFFFFFFFF80000000 := by
    intro key
    rw [h7 key]
    simp only [init]
    rw [hconv]
  refine ⟨⟨st, by rw [hpow]; exact h1, h6b, h7b []⟩, ?_, by decide⟩
  rw [process_eq_some]
  have hget := h7b [0]
  cases he : tableGet hash st.wordlists 65 [0] 0 with
  | none => simp [he] at hget
  | some e =>
    simp only [he, Option.map_some', Option.some.injEq] at hget
    have h3b : st.hash = 0 := h3
    have hrun2 : run hash 2 st
        = some { st with s := [0], order := [65, 32, 0], order_len := 1,
                         hash := mix 0 0xFFFFFFFF80000000 } := by
      simp [run, step, h2, set_order, scan, find, find_loop_succ, he, hget, h3b]
    refine ⟨2 ^ 31 + 2,
      { st with s := [0], order := [65, 32, 0], order_len := 1,
                hash := mix 0 0xFFFFFFFF80000000 }, ?_, ?_⟩
    · rw [run_add, hpow, h1, Option.some_bind, hrun2]
    · simp [step]

/-- C3, as stated, fails: on `"\nAx\nAx\nBx\tAB x"` the name "x" is defined
twice in wordlist `A` (serial numbers 1 and 2) and the lookup under the order
`A B`, which has `A` in it, resolves to 3, the serial number of "x" in `B`. -/
theorem shadowing_counterexample : ¬ ShadowingAsStated (fun _ => 0) inputShadow := by
  intro h
  obtain ⟨found, hf, h2, _⟩ := h 0 1 4 (stateShadow 0) (stateShadow 1) (stateShadow 4) 65
    [120, 10, 65, 120, 10, 66, 120, 9, 65, 66, 32, 120, 0]
    [120, 10, 66, 120, 9, 65, 66, 32, 120, 0] [120, 0] 1
    rfl rfl rfl rfl rfl rfl rfl rfl rfl rfl rfl (by decide) (by decide) (by decide)
  have hf2 : find (fun _ => 0) (stateShadow 4).wordlists (stateShadow 4).order
      (stateShadow 4).order_len [120, 0] = some ([0], 3) := by decide
  rw [hf2] at hf
  simp only [Option.some.injEq, Prod.mk.injEq] at hf
  have h3 : (stateShadow 1).serialno = 2 := rfl
  omega

/-- C3, amended: in a run with fewer than `2^31` define commands, when a name
is defined in wordlist `w` at pass `n1` and again at a later pass `n2`, a lookup
of the name at a later pass `n3` under a search order that has `w` in it never
resolves to the serial number of the first definition; and it resolves to the
serial number of the second definition when the name is not defined in `w`
again before the lookup and no identifier above an occurrence of `w` in the
order has a table in which the lookup finds the name. -/
theorem shadowing (hash : List Nat → Nat) (s : List Nat) (n1 n2 n3 : Nat)
    (st1 st2 st3 : State) (w : Nat) (r1 r2 r3 : List Nat) (i : Nat)
    (h1 : run hash n1 (init s) = some st1) (hs1 : st1.s = 10 :: w :: r1)
    (hi1 : scan r1 = some i)
    (h2 : run hash n2 (init s) = some st2) (hs2 : st2.s = 10 :: w :: r2)
    (hi2 : scan r2 = some i) (hname2 : r2.take i = r1.take i)
    (h3 : run hash n3 (init s) = some st3) (hs3 : st3.s = 32 :: r3)
    (hi3 : scan r3 = some i) (hname3 : r3.take i = r1.take i)
    (h12 : n1 < n2) (h23 : n2 < n3) (hw : w ∈ st3.order.take st3.order_len)
    (hfew : definesBefore hash (init s) n3 < 2 ^ 31) :
    (∃ st, step hash st1 = .next st
        ∧ (tableGet hash st.wordlists w r1 i).map (fun e => e.serialno) = some st1.serialno)
      ∧ ∃ found, find hash st3.wordlists st3.order st3.order_len r3 = some (r3.drop i, found)
        ∧ step hash st3 = .next
            { st3 with s := r3.drop i
                       hash := if found ≠ 0 then mix st3.hash found else st3.hash }
        ∧ found ≠ st1.serialno
        ∧ ((∀ k stk rk, n2 < k → k < n3 → run hash k (init s) = some stk →
              stk.s = 10 :: w :: rk → scan rk = some i → rk.take i ≠ r1.take i) →
            (∃ jw, jw < st3.order_len ∧ st3.order.getD jw 0 = w
              ∧ ∀ j, jw < j → j < st3.order_len →
                  tableGet hash st3.wordlists (st3.order.getD j 0) r3 i = none) →
            found = st2.serialno) := by
  have hm1 := definesBefore_mono hash (init s) (n1 + 1) n2 (by omega)
  have hm2 := definesBefore_mono hash (init s) n2 n3 (by omega)
  have hd1 := definesBefore_define hash (init s) st1 n1 h1 (by simp [hs1])
  have hser1 := (serialno_invariant hash s n1 st1 h1 (by omega)).1
  have hser2 := (serialno_invariant hash s n2 st2 h2 (by omega)).1
  have hother := shadow_other_wordlists hash s n1 st1 w r1 h1 hs1 n3 st3 h3 hfew (by omega)
  obtain ⟨e, he, hle, hexact⟩ :=
    shadow_same_wordlist hash s n2 st2 w r2 i h2 hs2 hi2 n3 st3 h3 hfew h23
  have he3 : tableGet hash st3.wordlists w r3 i = some e := by
    rw [tableGet_congr hash st3.wordlists w r3 r2 i (hname3.trans hname2.symm)]
    exact he
  have hfind : find hash st3.wordlists st3.order st3.order_len r3
      = some (r3.drop i, find_loop hash st3.wordlists st3.order r3 i st3.order_len) := by
    simp [find, hi3]
  refine ⟨?_, find_loop hash st3.wordlists st3.order r3 i st3.order_len, hfind,
    by simp [step, hs3, hfind], ?_, ?_⟩
  · obtain ⟨st, hstep, _, _, _, _, _, g6⟩ := step_define_fields hash st1 w r1 i hs1 hi1
    refine ⟨st, hstep, ?_⟩
    rw [g6, tableGet_define, if_pos ⟨rfl, rfl, rfl⟩]
    simp only [Option.map_some', Option.some.injEq]
    exact toULong_toInt_small _ (by omega)
  · obtain ⟨jw, hjw, hgw⟩ := getD_of_mem_take st3.order st3.order_len w hw
    rcases find_loop_cases hash st3.wordlists st3.order r3 i st3.order_len with
      ⟨_, hall⟩ | ⟨j, e2, hj, he2, hf⟩
    · have := hall jw hjw
      rw [hgw, he3] at this
      exact absurd this (by simp)
    · rw [hf]
      by_cases hv : st3.order.getD j 0 = w
      · rw [hv, he3] at he2
        injection he2 with he2
        rw [← he2]
        omega
      · obtain ⟨ht, b, hht, hmem⟩ := tableGet_mem hash st3.wordlists _ r3 i e2 he2
        exact hother _ ht b e2 hv hht hmem
  · intro hno ⟨jw, hjw, hgw, habove⟩
    have hfound := (find_loop_top hash st3.wordlists st3.order r3 i st3.order_len).1 jw e hjw
      (by rw [hgw]; exact he3) habove
    rw [hfound]
    apply hexact
    intro k stk rk a1 a2 a3 a4 a5
    rw [hname2]
    exact hno k stk rk a1 a2 a3 a4 a5

/-- Witness for C3: on `"\nAx\nAx\nBx\tAB x"` the lookup of "x" under `A B`
resolves to 3, which is not the serial number 1 of the first definition in `A`. -/
theorem shadowing_witness :
    run (fun _ => 0) 0 (init inputShadow) = some (stateShadow 0)
      ∧ run (fun _ => 0) 1 (init inputShadow) = some (stateShadow 1)
      ∧ run (fun _ => 0) 4 (init inputShadow) = some (stateShadow 4)
      ∧ (stateShadow 0).s = 10 :: 65 :: [120, 10, 65, 120, 10, 66, 120, 9, 65, 66, 32, 120, 0]
      ∧ (stateShadow 1).s = 10 :: 65 :: [120, 10, 66, 120, 9, 65, 66, 32, 120, 0]
      ∧ (stateShadow 4).s = 32 :: [120, 0]
      ∧ 65 ∈ (stateShadow 4).order.take (stateShadow 4).order_len
      ∧ definesBefore (fun _ => 0) (init inputShadow) 4 < 2 ^ 31
      ∧ (stateShadow 0).serialno = 1
      ∧ ∃ found, find (fun _ => 0) (stateShadow 4).wordlists (stateShadow 4).order
            (stateShadow 4).order_len [120, 0] = some ([0], found)
          ∧ found ≠ 1 := by
  have hfew : definesBefore (fun _ => 0) (init inputShadow) 4 < 2 ^ 31 := by decide
  have hw : 65 ∈ (stateShadow 4).order.take (stateShadow 4).order_len := by decide
  refine ⟨rfl, rfl, rfl, rfl, rfl, rfl, hw, hfew, rfl, ?_⟩
  obtain ⟨_, found, hf, _, hne, _⟩ := shadowing (fun _ => 0) inputShadow 0 1 4
    (stateShadow 0) (stateShadow 1) (stateShadow 4) 65
    [120, 10, 65, 120, 10, 66, 120, 9, 65, 66, 32, 120, 0]
    [120, 10, 66, 120, 9, 65, 66, 32, 120, 0] [120, 0] 1
    rfl rfl rfl rfl rfl rfl rfl rfl rfl rfl rfl (by decide) (by decide) hw hfew
  exact ⟨found, hf, hne⟩

/-- C15. Bucket index in range: on a table whose `size` is an `int` of at least
1, `ht_hash` returns an index `b` with `0 <= b < size` for every key of any
length and whatever value the hash of the key has; `ht_set` changes no bucket
but `table[b]`, and `ht_get` depends on no bucket but `table[b]`. -/
theorem ht_hash_in_range (hash : List Nat → Nat) (ht : hashtable_t) (key : List Nat)
    (key_len : Nat) (h1 : 1 ≤ ht.size) (h2 : ht.size < 2 ^ 31) :
    0 ≤ ht_hash hash ht key key_len ∧ ht_hash hash ht key key_len < ht.size
      ∧ (∀ serialno b, b ≠ ht_hash hash ht key key_len →
          (ht_set hash ht key key_len serialno).table b = ht.table b)
      ∧ ∀ ht2 : hashtable_t, ht2.size = ht.size →
          ht2.table (ht_hash hash ht key key_len) = ht.table (ht_hash hash ht key key_len) →
          ht_get hash ht2 key key_len = ht_get hash ht key key_len := by
  obtain ⟨n, hn⟩ : ∃ n : Nat, ht.size = (n : Int) := ⟨ht.size.toNat, by omega⟩
  have hn1 : 1 ≤ n := by omega
  have hn2 : n < 2 ^ 31 := by omega
  have hmod : hash (key.take key_len) % 2 ^ 64 % n < n := Nat.mod_lt _ (by omega)
  have hval : ht_hash hash ht key key_len
      = ((hash (key.take key_len) % 2 ^ 64 % n : Nat) : Int) := by
    simp only [ht_hash, hn]
    rw [toULong_ofNat n (by omega), toInt_small _ (by omega)]
  refine ⟨by rw [hval]; omega, by rw [hval, hn]; omega, ?_, ?_⟩
  · intro serialno b hb
    simp [ht_set, hb]
  · intro ht2 hsize htable
    have hh : ht_hash hash ht2 key key_len = ht_hash hash ht key key_len := by
      simp [ht_hash, hsize]
    rw [ht_get_eq_while, ht_get_eq_while, hh, htable]

/-- Witness for C15: a table of 4000 buckets and a hash value above `2^32`. -/
theorem ht_hash_in_range_witness :
    (1 : Int) ≤ 4000 ∧ (4000 : Int) < 2 ^ 31
      ∧ ht_hash (fun _ => 2 ^ 40 + 4001) { size := 4000, table := fun _ => [] } [120, 0] 1
          = 3777
      ∧ 0 ≤ ht_hash (fun _ => 2 ^ 40 + 4001) { size := 4000, table := fun _ => [] } [120, 0] 1
      ∧ ht_hash (fun _ => 2 ^ 40 + 4001) { size := 4000, table := fun _ => [] } [120, 0] 1
          < 4000 :=
  ⟨by decide, by decide, by decide,
    (ht_hash_in_range (fun _ => 2 ^ 40 + 4001) { size := 4000, table := fun _ => [] }
      [120, 0] 1 (by decide) (by decide)).1,
    (ht_hash_in_range (fun _ => 2 ^ 40 + 4001) { size := 4000, table := fun _ => [] }
      [120, 0] 1 (by decide) (by decide)).2.1⟩

/-- C17. Folding order matters: from the fingerprint 0, folding the serial
numbers 1 then 2 gives another 64-bit value than folding 2 then 1; so there are
serial numbers `a ≠ b` for which the order of folding changes the result, and
the two inputs that look up "x" and "y" in the two orders have different
fingerprints. -/
theorem mix_order_matters :
    mix (mix 0 1) 2 = 0xc97e5a6399952ffb ∧ mix (mix 0 2) 1 = 0x247212c71eaa4f51
      ∧ (∃ a b, a ≠ b ∧ mix (mix 0 a) b ≠ mix (mix 0 b) a)
      ∧ ∀ hash, process hash inputXY = some (.returned (mix (mix 0 1) 2))
          ∧ process hash inputYX = some (.returned (mix (mix 0 2) 1))
          ∧ process hash inputXY ≠ process hash inputYX := by
  have h12 : mix (mix 0 1) 2 = 0xc97e5a6399952ffb := by decide
  have h21 : mix (mix 0 2) 1 = 0x247212c71eaa4f51 := by decide
  refine ⟨h12, h21, ⟨1, 2, by decide, by rw [h12, h21]; decide⟩, ?_⟩
  intro hash
  have hxy : process hash inputXY = some (.returned (mix (mix 0 1) 2)) := by
    simp [process, inputXY, process_loop, step, init, create, scan, ht_create, set_order,
      find, find_loop_succ, find_loop, tableGet, ht_get_ht_set, ht_get_empty, toInt, toULong]
  have hyx : process hash inputYX = some (.returned (mix (mix 0 2) 1)) := by
    simp [process, inputYX, process_loop, step, init, create, scan, ht_create, set_order,
      find, find_loop_succ, find_loop, tableGet, ht_get_ht_set, ht_get_empty, toInt, toULong]
  refine ⟨hxy, hyx, ?_⟩
  rw [hxy, hyx, h12, h21]
  intro h
  injection h with h
  injection h with h
  exact absurd h (by decide)

/-- C20. The mixing step loses no information: for every 64-bit `f` the map
`h ↦ mix h f` is a bijection of the 64-bit values, and for every 64-bit `h` the
map `f ↦ mix h f` is injective on the 64-bit values; so fingerprints that
differ before a lookup of the same serial number differ after it. -/
theorem mix_bijective :
    (∀ f, f < 2 ^ 64 → Set.BijOn (fun h => mix h f) (Set.Iio (2 ^ 64)) (Set.Iio (2 ^ 64)))
      ∧ (∀ h, h < 2 ^ 64 → Set.InjOn (fun f => mix h f) (Set.Iio (2 ^ 64)))
      ∧ ∀ f h1 h2, f < 2 ^ 64 → h1 < 2 ^ 64 → h2 < 2 ^ 64 → h1 ≠ h2 →
          mix h1 f ≠ mix h2 f := by
  have hinj : ∀ f h1 h2, f < 2 ^ 64 → h1 < 2 ^ 64 → h2 < 2 ^ 64 →
      mix h1 f = mix h2 f → h1 = h2 := by
    intro f h1 h2 hf hh1 hh2 heq
    have e1 := mix_inv h1 f hh1 hf
    have e2 := mix_inv h2 f hh2 hf
    rw [heq, e2] at e1
    exact (Nat.xor_left_inj.mp e1).symm
  refine ⟨?_, ?_, ?_⟩
  · intro f hf
    refine ⟨fun h _ => mix_lt h f, ?_, ?_⟩
    · intro h1 hh1 h2 hh2 heq
      exact hinj f h1 h2 hf hh1 hh2 heq
    · intro r hr
      have hu : r ^^^ (r >>> 41) < 2 ^ 64 := xorshift_lt r hr
      refine ⟨((r ^^^ (r >>> 41)) * k0_inv % 2 ^ 64) ^^^ f,
        Nat.xor_lt_two_pow (Nat.mod_lt _ (by decide)) hf, ?_⟩
      simp only [mix]
      rw [Nat.xor_cancel_right, mul_k0_inv_left _ hu]
      exact xorshift_involutive r hr
  · intro h hh f1 hf1 f2 hf2 heq
    have e1 := mix_inv h f1 hh hf1
    have e2 := mix_inv h f2 hh hf2
    simp only at heq
    rw [heq, e2] at e1
    exact (Nat.xor_right_inj.mp e1).symm
  · intro f h1 h2 hf hh1 hh2 hne heq
    exact hne (hinj f h1 h2 hf hh1 hh2 heq)

/-- C16. Termination: on every byte sequence that has a 0 byte, the byte before
the first 0 not being `'\n'`, `process` ends by returning a fingerprint or by
the "invalid input" exit, within `length + 1` passes through its loop (more
passes allowed change nothing); and every pass that goes on leaves the read
position at least one byte further in the buffer. -/
theorem process_terminates (hash : List Nat → Nat) (pre post : List Nat) (h0 : 0 ∉ pre)
    (hlast : pre.getLast? ≠ some 10) :
    ((∃ h, process hash (pre ++ 0 :: post) = some (.returned h))
        ∨ process hash (pre ++ 0 :: post) = some .invalid)
      ∧ (∀ fuel, (pre ++ 0 :: post).length + 1 ≤ fuel →
          process_loop hash fuel (init (pre ++ 0 :: post)) = process hash (pre ++ 0 :: post))
      ∧ ∀ st st2, step hash st = .next st2 →
          st2.s.length < st.s.length ∧ st2.s <:+ st.s := by
  obtain ⟨o, ho⟩ := process_total hash (pre ++ 0 :: post)
  refine ⟨?_, ?_, fun st st2 h =>
    ⟨step_next_length hash st st2 h, step_next_suffix hash st st2 h⟩⟩
  · cases o with
    | returned h => exact Or.inl ⟨h, ho⟩
    | invalid => exact Or.inr ho
    | overrun => exact absurd ho (process_no_overrun hash pre post h0 hlast)
  · intro fuel hfuel
    obtain ⟨k, rfl⟩ : ∃ k, fuel = (pre ++ 0 :: post).length + 1 + k :=
      ⟨_, (Nat.add_sub_cancel' hfuel).symm⟩
    rw [ho]
    exact process_loop_mono hash _ k _ o ho

/-- Witness for C16: the scenario input, whose first 0 follows "foo". -/
theorem process_terminates_witness :
    0 ∉ [10, 65, 102, 111, 111, 9, 65, 32, 98, 97, 114, 9, 65, 32, 102, 111, 111]
      ∧ [10, 65, 102, 111, 111, 9, 65, 32, 98, 97, 114, 9, 65, 32, 102, 111, 111].getLast?
          ≠ some 10
      ∧ ((∃ h, process (fun _ => 0)
              ([10, 65, 102, 111, 111, 9, 65, 32, 98, 97, 114, 9, 65, 32, 102, 111, 111]
                ++ 0 :: [7, 7]) = some (.returned h))
          ∨ process (fun _ => 0)
              ([10, 65, 102, 111, 111, 9, 65, 32, 98, 97, 114, 9, 65, 32, 102, 111, 111]
                ++ 0 :: [7, 7]) = some .invalid) :=
  ⟨by decide, by decide,
    (process_terminates (fun _ => 0)
      [10, 65, 102, 111, 111, 9, 65, 32, 98, 97, 114, 9, 65, 32, 102, 111, 111] [7, 7]
      (by decide) (by decide)).1⟩

/-- C13. Empty initial order: a lookup command met before any set-order command
of the run finds nothing (`found = 0`) and leaves the fingerprint, and all the
state but the read position, as it was, whatever has been defined; and at any
point of a run the search order is empty or is the bytes above `' '` that
follow a tab command byte in the input. -/
theorem order_empty_before_set_order (hash : List Nat → Nat) (s : List Nat) (n : Nat)
    (st : State) (hrun : run hash n (init s) = some st) :
    ((∀ k stk, k < n → run hash k (init s) = some stk → ∀ r, stk.s ≠ 9 :: r) →
        st.order_len = 0
          ∧ ∀ r i, st.s = 32 :: r → scan r = some i →
              find hash st.wordlists st.order st.order_len r = some (r.drop i, 0)
                ∧ step hash st = .next { st with s := r.drop i })
      ∧ (st.order_len = 0
          ∨ ∃ k stk r, k < n ∧ run hash k (init s) = some stk ∧ stk.s = 9 :: r
              ∧ st.order = r ∧ scan r = some st.order_len)
      ∧ (∀ b ∈ st.order.take st.order_len, 32 < b)
      ∧ (st.order.take st.order_len = []
          ∨ ∃ pre post, s = pre ++ 9 :: (st.order.take st.order_len ++ post)) := by
  have hfrom := order_from_set_order hash s n st hrun
  refine ⟨?_, hfrom, ?_, ?_⟩
  · intro h9
    have hlen : st.order_len = 0 := (run_order_frame hash n (init s) st hrun h9).2
    refine ⟨hlen, ?_⟩
    intro r i hs hi
    have hfind : find hash st.wordlists st.order st.order_len r = some (r.drop i, 0) := by
      simp [find, hi, hlen, find_loop]
    exact ⟨hfind, by simp [step, hs, hfind]⟩
  · rcases hfrom with h0 | ⟨k, stk, r, _, _, _, ho, hl⟩
    · simp [h0]
    · rw [ho]
      exact (scan_spec r _ hl).2.1
  · rcases hfrom with h0 | ⟨k, stk, r, _, hrk, hsk, ho, hl⟩
    · exact Or.inl (by simp [h0])
    · right
      obtain ⟨pre, hpre⟩ := run_suffix hash s k stk hrk
      refine ⟨pre, r.drop st.order_len, ?_⟩
      rw [ho, List.take_append_drop, ← hsk]
      exact hpre.symm

/-- Witness for C13: on `"\nAx x\tA x"` the first lookup of "x" is made before
any set-order command and finds nothing. -/
theorem order_empty_before_set_order_witness :
    run (fun _ => 0) 1 (init inputFirst) = some stateFirst
      ∧ stateFirst.s = 32 :: [120, 9, 65, 32, 120, 0]
      ∧ stateFirst.order_len = 0
      ∧ find (fun _ => 0) stateFirst.wordlists stateFirst.order stateFirst.order_len
          [120, 9, 65, 32, 120, 0] = some ([9, 65, 32, 120, 0], 0) := by
  have h := (order_empty_before_set_order (fun _ => 0) inputFirst 1 stateFirst rfl).1 (by
    intro k stk hk hrk r hs
    have hk0 : k = 0 := by omega
    subst hk0
    simp only [run, Option.some.injEq] at hrk
    subst hrk
    simp [init, inputFirst] at hs)
  exact ⟨rfl, rfl, h.1, (h.2 [120, 9, 65, 32, 120, 0] 1 rfl rfl).1⟩

/-- C14. Repeated identifiers are harmless: `find` gives the same result under
an order `o` as under `o` without its duplicates, each identifier kept at its
last (topmost) occurrence only; and the pass for a lookup command folds the
`found` of that order into the fingerprint once, however often the wordlist of
the name occurs in the order. -/
theorem find_dedup (hash : List Nat → Nat) (wordlists : Wordlists) (o rest rest2 s : List Nat) :
    find hash wordlists (o ++ rest) o.length s
        = find hash wordlists (o.dedup ++ rest2) o.dedup.length s
      ∧ ∀ (st : State) r i, st.s = 32 :: r → scan r = some i → st.wordlists = wordlists →
          st.order = o ++ rest → st.order_len = o.length →
          ∃ found, find hash wordlists (o.dedup ++ rest2) o.dedup.length r
              = some (r.drop i, found)
            ∧ step hash st = .next
                { st with s := r.drop i
                          hash := if found ≠ 0 then mix st.hash found else st.hash } := by
  have hfind : ∀ s, find hash wordlists (o ++ rest) o.length s
      = find hash wordlists (o.dedup ++ rest2) o.dedup.length s := by
    intro s
    unfold find
    cases scan s with
    | none => rfl
    | some i =>
      simp only []
      rw [find_loop_eq_find_list, find_loop_eq_find_list, find_list_dedup]
  refine ⟨hfind s, ?_⟩
  intro st r i hs hi hwl ho hl
  refine ⟨find_loop hash wordlists (o.dedup ++ rest2) r i o.dedup.length,
    by simp [find, hi], ?_⟩
  have h1 : find hash st.wordlists st.order st.order_len r
      = some (r.drop i, find_loop hash wordlists (o.dedup ++ rest2) r i o.dedup.length) := by
    rw [hwl, ho, hl, hfind r]
    simp [find, hi]
  simp [step, hs, h1]

/-- Witness for C14: under the order `A B A` the lookup of "x" is as under `B A`. -/
theorem find_dedup_witness :
    [65, 66, 65].dedup = [66, 65]
      ∧ find (fun _ => 0) (stateAx [] 0).wordlists ([65, 66, 65] ++ [32]) 3 [120, 0]
          = find (fun _ => 0) (stateAx [] 0).wordlists ([66, 65] ++ [0]) 2 [120, 0]
      ∧ find (fun _ => 0) (stateAx [] 0).wordlists ([66, 65] ++ [0]) 2 [120, 0]
          = some ([0], 1) :=
  ⟨by decide,
    (find_dedup (fun _ => 0) (stateAx [] 0).wordlists [65, 66, 65] [32] [0] [120, 0]).1,
    rfl⟩

/-- C11. Define targets exactly one wordlist: the pass for a define command with
identifier `w` and a name of `i` bytes at `r` inserts into the table of `w`,
which is the existing table or else a new one of 4000 empty buckets; the tables
of all other identifiers, the search order and the fingerprint stay as they
are; the lookup of the name in `w` then gives the new entry and the lookup of
every other name in `w` gives what it gave before.  The serial number of the
new entry is the counter as it comes through the `int` parameter of `ht_set`:
the counter itself below `2^31`, but `0xFFFFFFFF80000000` at the `2^31`-th
define command of `overflowInput`, whose serial number is `2^31`. -/
theorem define_one_wordlist (hash : List Nat → Nat) :
    (∀ (st : State) w r i, st.s = 10 :: w :: r → scan r = some i →
        ∃ st1, step hash st = .next st1
          ∧ st1.s = r.drop i ∧ st1.hash = st.hash
          ∧ st1.order = st.order ∧ st1.order_len = st.order_len
          ∧ (∀ v, v ≠ w → st1.wordlists v = st.wordlists v)
          ∧ st1.wordlists w
              = some (ht_set hash (tableOr st.wordlists w) r i (toInt st.serialno))
          ∧ (∀ ht, st.wordlists w = some ht → tableOr st.wordlists w = ht)
          ∧ (st.wordlists w = none →
              ht_create 4000 = some (tableOr st.wordlists w)
                ∧ (tableOr st.wordlists w).size = 4000
                ∧ ∀ b, (tableOr st.wordlists w).table b = [])
          ∧ tableGet hash st1.wordlists w r i
              = some { name := some r, name_len := i,
                       serialno := toULong (toInt st.serialno) }
          ∧ (st.serialno < 2 ^ 31 → toULong (toInt st.serialno) = st.serialno)
          ∧ ∀ key l, ¬ (l = i ∧ key.take l = r.take l) →
              tableGet hash st1.wordlists w key l = tableGet hash st.wordlists w key l)
      ∧ ∃ st, run hash (2 ^ 31 - 1) (init overflowInput) = some st
          ∧ st.s = 10 :: 65 :: [9, 65, 32, 0] ∧ st.serialno = 2 ^ 31
          ∧ ∃ st1, step hash st = .next st1
              ∧ tableGet hash st1.wordlists 65 [9, 65, 32, 0] 0
                  = some { name := some [9, 65, 32, 0], name_len := 0,
                           serialno := 0xFFFFFFFF80000000 } := by
  have hframe : ∀ (st : State) w r i, st.s = 10 :: w :: r → scan r = some i →
      ∃ st1, step hash st = .next st1
        ∧ st1.s = r.drop i ∧ st1.hash = st.hash
        ∧ st1.order = st.order ∧ st1.order_len = st.order_len
        ∧ (∀ v, v ≠ w → st1.wordlists v = st.wordlists v)
        ∧ st1.wordlists w
            = some (ht_set hash (tableOr st.wordlists w) r i (toInt st.serialno))
        ∧ (∀ ht, st.wordlists w = some ht → tableOr st.wordlists w = ht)
        ∧ (st.wordlists w = none →
            ht_create 4000 = some (tableOr st.wordlists w)
              ∧ (tableOr st.wordlists w).size = 4000
              ∧ ∀ b, (tableOr st.wordlists w).table b = [])
        ∧ tableGet hash st1.wordlists w r i
            = some { name := some r, name_len := i,
                     serialno := toULong (toInt st.serialno) }
        ∧ (st.serialno < 2 ^ 31 → toULong (toInt st.serialno) = st.serialno)
        ∧ ∀ key l, ¬ (l = i ∧ key.take l = r.take l) →
            tableGet hash st1.wordlists w key l = tableGet hash st.wordlists w key l := by
    intro st w r i hs hi
    obtain ⟨st1, hstep, g1, g2, g3, g4, _, g6⟩ := step_define_fields hash st w r i hs hi
    refine ⟨st1, hstep, g1, g2, g3, g4, ?_, ?_, ?_, ?_, ?_, toULong_toInt_small _, ?_⟩
    · intro v hv
      rw [g6]
      simp [hv]
    · rw [g6]
      simp
    · intro ht hw
      simp [tableOr, hw]
    · intro hw
      simp [tableOr, hw, ht_create]
    · rw [g6, tableGet_define, if_pos ⟨rfl, rfl, rfl⟩]
    · intro key l hne
      rw [g6, tableGet_define, if_neg (fun h => hne h.2)]
  refine ⟨hframe, ?_⟩
  have hpow : (2 : Nat) ^ 31 = 2147483646 + 1 + 1 := by norm_num
  have hconv : toULong (toInt (1 + 2147483646 + 1)) = 0xFFFFFFFF80000000 := by decide
  obtain ⟨st, h1, h2, _, _, _, h6, _⟩ :=
    run_defines hash [10, 65, 9, 65, 32, 0] (by decide) 2147483646 (init overflowInput)
      (by rw [overflowInput, hpow, defines_succ_last]; rfl) (by simp [init])
  have hser : st.serialno = 1 + 2147483646 + 1 := by
    rw [h6]
    rfl
  refine ⟨st, by rw [hpow]; exact h1, h2, by rw [hser]; norm_num, ?_⟩
  obtain ⟨st1, hstep, _, _, _, _, _, _, _, _, hget, _⟩ :=
    hframe st 65 [9, 65, 32, 0] 0 h2 (by decide)
  refine ⟨st1, hstep, ?_⟩
  rw [hget, hser, hconv]

/-- C18. No read past the end marker: every scan of a name or of an order
started before a 0 byte stops at that byte at the latest; on an input that
ends with its first 0, in whose run no `'\n'` command byte is right before
that 0, no pass of `process` (so no read of `create`, `set_order` or `find`)
is outside the buffer, and bytes put after the 0 do not change the outcome;
that condition holds whenever the byte before the first 0 is not `'\n'`.  The
read that steps over the 0 is the identifier read of `create`: on `"\n"`
followed by the 0 the run leaves the buffer. -/
theorem no_read_past_end_marker (hash : List Nat → Nat) (pre : List Nat) (h0 : 0 ∉ pre) :
    (∀ p post, ∃ i, scan (p ++ 0 :: post) = some i ∧ i ≤ p.length)
      ∧ ((∀ n st, run hash n (init (pre ++ [0])) = some st → st.s ≠ [10, 0]) →
          process hash (pre ++ [0]) ≠ some .overrun
            ∧ (∀ n st, run hash n (init (pre ++ [0])) = some st →
                step hash st ≠ .done .overrun)
            ∧ ∀ post, process hash (pre ++ 0 :: post) = process hash (pre ++ [0]))
      ∧ (pre.getLast? ≠ some 10 →
          ∀ n st, run hash n (init (pre ++ [0])) = some st → st.s ≠ [10, 0])
      ∧ process hash [10, 0] = some .overrun
      ∧ ∀ wordlists serialno, create hash wordlists [0] serialno = none := by
  refine ⟨scan_before_zero, ?_, ?_, by simp [process, process_loop, step, init, create, scan],
    ?_⟩
  · intro hno
    have hover : process hash (pre ++ [0]) ≠ some .overrun :=
      (sameUpToZero_process_loop hash [] [] _ _ _ pre
        (init_sameUpToZero hash pre [] [] h0) hno).2
    refine ⟨hover, ?_, ?_⟩
    · intro n st hrun hdone
      exact hover ((process_eq_some hash _ _).mpr ⟨n, st, hrun, hdone⟩)
    · intro post
      obtain ⟨o, ho⟩ := process_total hash (pre ++ [0])
      have hsim := (sameUpToZero_process_loop hash post [] ((pre ++ 0 :: post).length + 1)
        _ _ pre (init_sameUpToZero hash pre post [] h0) hno).1
      have hmono := process_loop_mono hash _ post.length _ o ho
      have hlen : (pre ++ [0]).length + 1 + post.length = (pre ++ 0 :: post).length + 1 := by
        simp
        omega
      rw [hlen] at hmono
      rw [ho, process, hsim]
      exact hmono
  · intro hlast n st hrun hs
    obtain ⟨q, hq⟩ := run_suffix hash (pre ++ [0]) n st hrun
    rw [hs] at hq
    have hq2 : (q ++ [10]) ++ [0] = pre ++ [0] := by simpa using hq
    have hq3 := List.append_cancel_right hq2
    apply hlast
    rw [← hq3]
    simp
  · intro wordlists serialno
    simp [create, scan]

/-- Witness for C18: the input `"\nAx\tA x"`, alone and with bytes after its end marker. -/
theorem no_read_past_end_marker_witness :
    0 ∉ [10, 65, 120, 9, 65, 32, 120]
      ∧ [10, 65, 120, 9, 65, 32, 120].getLast? ≠ some 10
      ∧ process (fun _ => 0) ([10, 65, 120, 9, 65, 32, 120] ++ [0]) ≠ some .overrun
      ∧ process (fun _ => 0) ([10, 65, 120, 9, 65, 32, 120] ++ 0 :: [10, 66, 33])
          = process (fun _ => 0) ([10, 65, 120, 9, 65, 32, 120] ++ [0]) := by
  have h := no_read_past_end_marker (fun _ => 0) [10, 65, 120, 9, 65, 32, 120] (by decide)
  have hno := h.2.2.1 (by decide)
  exact ⟨by decide, by decide, (h.2.1 hno).1, (h.2.1 hno).2.2 [10, 66, 33]⟩

end Ep15
